import Mathlib

/-!
EasyRead extension — verification of the background coordination core.

A shallow embedding, in Lean 4, of the parts of the EasyRead browser
extension that its design document makes checkable claims about:

* selection validation in `handleExplainRequest` (`src/background.js`),
* the cache-key fingerprint `buildCacheKey`,
* retry with exponential backoff (`withExponentialBackoff`),
* the vocabulary filter `keepB2PlusWords` and `enforceEasyLanguage`,
* the copy-detection guard `isExplanationTooCloseToSource`,
* response parsing/normalization (`src/lib/schema.js`),
* the difficulty test `findHardWords` (`src/lib/simplicity.js`),
* the chunker `splitTextIntoChunks`,
* the bounded worker pool `mapWithConcurrency`,
* the in-flight registry of `handleExplainRequest`.

Strings are modelled as Lean `String`s; most computation is done on the
underlying `List Char`, with JavaScript's `String.prototype` operations
re-implemented explicitly.  JavaScript string lengths are UTF-16 code unit
counts while Lean counts code points; every text the claims quantify over is
ASCII, where the two coincide.  Host primitives that are not part of the
repository (SHA-256, `JSON.parse`, `Math.random`) are modelled explicitly
where they appear, as documented at their definitions.
-/

namespace EasyRead

/-! ## Generic character and string helpers (JS string primitives) -/

/-- JavaScript's whitespace class `\s`, modelled by `Char.isWhitespace`. -/
def jsIsWs (c : Char) : Bool := c.isWhitespace

def isAsciiLetter (c : Char) : Bool := ('A' ≤ c ∧ c ≤ 'Z') ∨ ('a' ≤ c ∧ c ≤ 'z')

def isAsciiUpper (c : Char) : Bool := 'A' ≤ c ∧ c ≤ 'Z'

def isAsciiLower (c : Char) : Bool := 'a' ≤ c ∧ c ≤ 'z'

def isAsciiDigit (c : Char) : Bool := '0' ≤ c ∧ c ≤ '9'

/-- One step of collapsing whitespace runs: `prevWs` records whether the
previous input character was whitespace (in which case further whitespace is
absorbed into the single `' '` already emitted).  Implements the global
replacement `replace(/\s+/g, " ")`. -/
def collapseGo : Bool → List Char → List Char
  | _, [] => []
  | prevWs, c :: rest =>
    if jsIsWs c then
      if prevWs then collapseGo true rest else ' ' :: collapseGo true rest
    else c :: collapseGo false rest

/-- The `replace(/\s+/g, " ")` on a character list. -/
def collapseWs (l : List Char) : List Char := collapseGo false l

/-- The `String.prototype.trim()` on a character list: drop whitespace from both
ends. -/
def trimChars (l : List Char) : List Char :=
  ((l.dropWhile jsIsWs).reverse.dropWhile jsIsWs).reverse

/-- The `String.prototype.trim()`. -/
def jsTrim (s : String) : String := ⟨trimChars s.data⟩

/-- The `String.prototype.split(sep)` for a single-character separator. -/
def splitOnChar (sep : Char) : List Char → List (List Char)
  | [] => [[]]
  | c :: rest =>
    if c = sep then [] :: splitOnChar sep rest
    else
      match splitOnChar sep rest with
      | [] => [[c]]
      | w :: ws => (c :: w) :: ws

/-- The `Array.prototype.join(" ")` on a list of character lists. -/
def joinSpace : List (List Char) → List Char
  | [] => []
  | [w] => w
  | w :: ws => w ++ ' ' :: joinSpace ws

/-- The `Set.prototype.add` for a JS `Set` modelled as a duplicate-free list in
insertion order. -/
def jsSetAdd {α : Type} [DecidableEq α] (l : List α) (x : α) : List α :=
  if x ∈ l then l else l ++ [x]

/-- The `String.prototype.toLowerCase()` (ASCII range, see header note). -/
def jsToLower (s : String) : String := ⟨s.data.map Char.toLower⟩

/-- The `String.prototype.toUpperCase()` (ASCII range, see header note). -/
def jsToUpper (s : String) : String := ⟨s.data.map Char.toUpper⟩

/-- The `String.prototype.includes(needle)` on character lists. -/
def jsIncludes : List Char → List Char → Bool
  | hay, needle =>
    needle.isPrefixOf hay ||
      match hay with
      | [] => false
      | _ :: t => jsIncludes t needle

/-- The `hasText(value)` from `background.js`: the value is a string whose trim is
non-empty. -/
def hasText (s : String) : Bool := !(jsTrim s).data.isEmpty

/-! ## `EasyReadError` and selection validation (`handleExplainRequest`) -/

/-- The `EasyReadError` class of `background.js` (message, code, retriable). -/
structure EasyReadError where
  message : String
  code : String
  retriable : Bool
deriving DecidableEq, Repr

/-- The `HARD_MAX_CHARS` from `background.js`. -/
def HARD_MAX_CHARS : Nat := 12000

/-- The `FAST_SINGLE_CALL_MAX_CHARS` from `background.js` (set to `0`: the
comment there says "Always return explanation first; words are loaded in a
deferred pass"). -/
def FAST_SINGLE_CALL_MAX_CHARS : Nat := 0

/-- The `MODEL_NANO_MAX_CHARS` from `background.js`. -/
def MODEL_NANO_MAX_CHARS : Nat := 1200

def MODEL_SHORT_TEXT : String := "gpt-5-nano"

def MODEL_LONG_TEXT : String := "gpt-5-mini"

/-- The `MODEL_VERSION` from `src/lib/constants.js`. -/
def MODEL_VERSION : String := "easyread-mvp-2026-02"

/-- The `normalizeSelection` from `background.js`: trim when given a string,
otherwise the empty string. -/
def normalizeSelection (v : Option String) : String :=
  match v with
  | some s => jsTrim s
  | none => ""

/-- The `chooseModelForText` from `background.js`. -/
def chooseModelForText (textLength : Nat) : String :=
  if textLength > MODEL_NANO_MAX_CHARS then MODEL_LONG_TEXT else MODEL_SHORT_TEXT

/-- The validation prefix of `handleExplainRequest` (`background.js`, lines
210–223): empty selections and selections beyond `HARD_MAX_CHARS` are
rejected before any further processing. -/
def validateSelection (raw : Option String) : Except EasyReadError String :=
  let selectedText := normalizeSelection raw
  if selectedText = "" then
    .error ⟨"Please select text first.", "NO_SELECTION", false⟩
  else if selectedText.length > HARD_MAX_CHARS then
    .error ⟨"Selection is too long (" ++ toString selectedText.length ++
        " chars). Max is " ++ toString HARD_MAX_CHARS ++ ".",
      "SELECTION_TOO_LONG", false⟩
  else .ok selectedText

/-- The `isFastSingleCallPath` (`background.js` line 224): the selection length
is at most `FAST_SINGLE_CALL_MAX_CHARS`. -/
def isFastSingleCallPath (selectedText : String) : Bool :=
  selectedText.length ≤ FAST_SINGLE_CALL_MAX_CHARS

/-! ## Cache-key fingerprint (`buildCacheKey`) -/

/-- The SHA-256 hex digest computed by `crypto.subtle.digest` is a host
primitive, not repository code; it is modelled as an injective placeholder
(the identity on the serialized string).  Collision behaviour of the real
hash is outside this model: every statement below about key equality is
really a statement about the `"||"`-joined serialization the digest is
applied to. -/
def sha256 (input : String) : String := input

/-- The `buildCacheKey` from `background.js`: join the five parts with `"||"` and
hash. -/
def buildCacheKey (pageOrigin selectedText explanationMode model modelVersion : String) : String :=
  sha256 (String.intercalate "||"
    [pageOrigin, selectedText, explanationMode, model, modelVersion])

/-! ## In-flight registry model (`handleExplainRequest`, lines 224–411)

The shared mutable state of the background coordinator: the persisted result
cache, the `inflightRequests` map, and (for the statements below) a counter
of upstream pipeline invocations and a flag recording whether the in-flight
registry was ever written.  Results are abstracted to `Nat` tokens — the
claims settled against this model only count upstream invocations and track
registry usage, never result contents. -/

structure OrchState where
  cache : List (String × Nat)
  inflight : List String
  upstreamCalls : Nat
  everRegistered : Bool
deriving DecidableEq, Repr

/-- What the opening of `handleExplainRequest` decides for one request. -/
inductive BeginOutcome where
  | rejected (e : EasyReadError)
  | cachedHit (v : Nat)
  | joined
  | started (key : String) (fast : Bool)
deriving DecidableEq, Repr

/-- The prefix of `handleExplainRequest` up to (and including) starting the
work promise: validation, cache-key computation, cache lookup, the
fast-path in-flight join (lines 254–268), and otherwise the start of the
pipeline (one upstream invocation) with fast-path registration (lines
370–372).  Executed atomically: the code contains no `await` between the
in-flight lookup and the registration. -/
def beginExplainRequest (st : OrchState) (raw : Option String)
    (pageOrigin explanationMode : String) : BeginOutcome × OrchState :=
  match validateSelection raw with
  | .error e => (.rejected e, st)
  | .ok selectedText =>
    let fast := isFastSingleCallPath selectedText
    let key := buildCacheKey pageOrigin selectedText explanationMode
      (chooseModelForText selectedText.length) MODEL_VERSION
    match st.cache.lookup key with
    | some v => (.cachedHit v, st)
    | none =>
      if fast ∧ st.inflight.contains key then (.joined, st)
      else
        (.started key fast,
         { st with
            upstreamCalls := st.upstreamCalls + 1,
            inflight := if fast then st.inflight ++ [key] else st.inflight,
            everRegistered := st.everRegistered ∨ fast })

/-- The settlement of one request's work promise: the cache write
(`saveCachedResponse`) and the `finally` block that deletes the fast-path
registry entry (lines 406–410). -/
def finishExplainRequest (st : OrchState) (key : String) (fast : Bool)
    (result : Nat) : OrchState :=
  { st with
      cache := st.cache.filter (fun p => ¬ p.1 = key) ++ [(key, result)],
      inflight := if fast then st.inflight.erase key else st.inflight }

/-- Two identical requests arriving concurrently on an empty cache: both run
the opening of `handleExplainRequest` before either work promise settles
(the overlap that in-flight coalescing is meant to collapse), then both
settle. -/
def runTwoConcurrentIdenticalRequests (raw : Option String)
    (pageOrigin explanationMode : String) : OrchState × BeginOutcome × BeginOutcome :=
  let st0 : OrchState := ⟨[], [], 0, false⟩
  let p1 := beginExplainRequest st0 raw pageOrigin explanationMode
  let p2 := beginExplainRequest p1.2 raw pageOrigin explanationMode
  let st3 :=
    match p1.1 with
    | .started k f => finishExplainRequest p2.2 k f 0
    | _ => p2.2
  let st4 :=
    match p2.1 with
    | .started k f => finishExplainRequest st3 k f 1
    | _ => st3
  (st4, p1.1, p2.1)

/-! ## Exponential backoff (`withExponentialBackoff`, lines 1425–1444) -/

/-- A thrown JS error as `withExponentialBackoff` observes it: a message, a
code, and the `retriable` flag it branches on. -/
structure JsError where
  message : String
  code : String
  retriable : Bool
deriving DecidableEq, Repr

/-- Observable outcome of one `withExponentialBackoff` run: the returned
value or thrown error, how many times `action` was invoked, and the argument
of each `sleep` call in order. -/
structure BackoffOutcome (α : Type) where
  result : Except JsError α
  attemptsUsed : Nat
  sleeps : List Nat
deriving Repr

/-- The loop of `withExponentialBackoff`.  `remaining` counts the attempts
still allowed including the current one (so `remaining = 1` exactly when
`attempt === maxAttempts`); `attempt` is the 1-based attempt number passed
to the action; `waitMs` doubles after every sleep; `sleeps` accumulates the
sleep durations in reverse.  `Math.random() * 150` jitter is a host
primitive, modelled by the ambient function `jitter` applied to the attempt
number. -/
def backoffGo {α : Type} (action : Nat → Except JsError α) (jitter : Nat → Nat) :
    Nat → Nat → Nat → Option JsError → List Nat → BackoffOutcome α
  | 0, attempt, _, lastError, sleeps =>
    ⟨.error (lastError.getD ⟨"Request failed.", "UNKNOWN", false⟩), attempt - 1,
      sleeps.reverse⟩
  | remaining + 1, attempt, waitMs, _, sleeps =>
    match action attempt with
    | .ok v => ⟨.ok v, attempt, sleeps.reverse⟩
    | .error e =>
      if e.retriable ∧ remaining ≠ 0 then
        backoffGo action jitter remaining (attempt + 1) (waitMs * 2) (some e)
          ((waitMs + jitter attempt) :: sleeps)
      else ⟨.error e, attempt, sleeps.reverse⟩

/-- The `withExponentialBackoff(action, maxAttempts)`: up to `maxAttempts`
attempts, base delay 600ms doubling each attempt plus jitter. -/
def withExponentialBackoff {α : Type} (action : Nat → Except JsError α)
    (maxAttempts : Nat) (jitter : Nat → Nat) : BackoffOutcome α :=
  backoffGo action jitter maxAttempts 1 600 none []

/-- The `attempt ↦ Except.isOk` test used to phrase retriable-failure
hypotheses decidably. -/
def isRetriableFailure {α : Type} : Except JsError α → Bool
  | .error e => e.retriable
  | .ok _ => false

/-- The five-attempt upstream scenario of the spec's example: attempts 1–4
fail with a retriable `ProxyRetryable`-style error, attempt 5 would
succeed. -/
def proxyScenarioAction : Nat → Except JsError Nat := fun attempt =>
  if attempt ≤ 4 then .error ⟨"Upstream returned 503.", "PROXY_RETRYABLE", true⟩
  else .ok 200

/-! ## Letter-run tokenizer (`TOKEN_REGEX` of `src/lib/simplicity.js`)

`/[A-Za-z]+(?:'[A-Za-z]+)?/g` matched left to right, greedily: a maximal
letter run, optionally followed by one apostrophe and a second letter run.
Implemented as the regex's deterministic automaton, folded over the
characters. -/

inductive TokPhase where
  | outside
  | firstRun
  | afterApos
  | secondRun
deriving DecidableEq, Repr

structure TokState where
  acc : List (List Char)
  cur : List Char
  phase : TokPhase
deriving Repr

def tokStep (st : TokState) (c : Char) : TokState :=
  match st.phase with
  | .outside =>
    if isAsciiLetter c then ⟨st.acc, [c], .firstRun⟩ else st
  | .firstRun =>
    if isAsciiLetter c then ⟨st.acc, st.cur ++ [c], .firstRun⟩
    else if c = '\'' then ⟨st.acc, st.cur, .afterApos⟩
    else ⟨st.acc ++ [st.cur], [], .outside⟩
  | .afterApos =>
    if isAsciiLetter c then ⟨st.acc, st.cur ++ '\'' :: [c], .secondRun⟩
    else ⟨st.acc ++ [st.cur], [], .outside⟩
  | .secondRun =>
    if isAsciiLetter c then ⟨st.acc, st.cur ++ [c], .secondRun⟩
    else ⟨st.acc ++ [st.cur], [], .outside⟩

def tokFlush (st : TokState) : List (List Char) :=
  match st.phase with
  | .outside => st.acc
  | _ => st.acc ++ [st.cur]

/-- The `text.match(TOKEN_REGEX) || []`. -/
def matchLetterApostropheTokens (s : String) : List String :=
  (tokFlush (s.data.foldl tokStep ⟨[], [], .outside⟩)).map (fun l => (⟨l⟩ : String))

/-! ## Difficulty test (`src/lib/simplicity.js`) -/

/-- The `normalizeToken`: lowercase, strip leading/trailing apostrophes, then
replace the UTF-8-mojibake right quote `â€™` by `'`. -/
def stripEdgeApostrophes (l : List Char) : List Char :=
  ((l.dropWhile (· = '\'')).reverse.dropWhile (· = '\'')).reverse

def replaceMojibakeQuote : List Char → List Char
  | 'â' :: '€' :: '™' :: rest => '\'' :: replaceMojibakeQuote rest
  | c :: rest => c :: replaceMojibakeQuote rest
  | [] => []

def normalizeToken (t : String) : String :=
  ⟨replaceMojibakeQuote (stripEdgeApostrophes (t.data.map Char.toLower))⟩

/-- The `isNumberLike`: `/^[0-9]+([.,][0-9]+)?$/`. -/
def isNumberLike (t : String) : Bool :=
  let d1 := t.data.takeWhile isAsciiDigit
  let r1 := t.data.dropWhile isAsciiDigit
  !d1.isEmpty &&
    (r1.isEmpty ||
      match r1 with
      | c :: rest => (c = '.' ∨ c = ',') ∧ (!rest.isEmpty ∧ rest.all isAsciiDigit)
      | [] => false)

/-- One `[A-Z][a-z]+` segment of the hyphenated-proper-noun pattern. -/
def capSegMatches (seg : List Char) : Bool :=
  match seg with
  | c :: rest => isAsciiUpper c ∧ (!rest.isEmpty ∧ rest.all isAsciiLower)
  | [] => false

/-- The `looksLikeProperNoun`: `/^[A-Z]{2,}$/` or
`/^[A-Z][a-z]+(?:-[A-Z][a-z]+)+$/`.  The second pattern is equivalent to:
splitting on `'-'` yields at least two segments, all matching `[A-Z][a-z]+`
(a segment can never contain `'-'`, so the split loses no information). -/
def looksLikeProperNoun (t : String) : Bool :=
  if t.data.isEmpty then false
  else if 2 ≤ t.length ∧ t.data.all isAsciiUpper then true
  else
    let segs := splitOnChar '-' t.data
    2 ≤ segs.length ∧ segs.all capSegMatches

/-- The `suffixRules` table of `isAllowedVariation`. -/
def suffixRules : List (List Char × Nat) :=
  [("ing".data, 3), ("ed".data, 2), ("es".data, 2), ("s".data, 1),
   ("er".data, 2), ("est".data, 3), ("ly".data, 2)]

/-- The `for (const [suffix, min] of suffixRules)` loop of
`isAllowedVariation`.  The guard `lower.length > suffix.length + min` is
written `suffix.length + min < lower.length`. -/
def suffixLoop (lower : List Char) (easyWordSet : List String) :
    List (List Char × Nat) → Bool
  | [] => false
  | (suffix, mn) :: rest =>
    if suffix.isSuffixOf lower ∧ suffix.length + mn < lower.length then
      let stem := lower.take (lower.length - suffix.length)
      if easyWordSet.contains ⟨stem⟩ then true
      else if suffix = "ing".data ∧ easyWordSet.contains ⟨stem ++ ['e']⟩ then true
      else if (suffix = "ed".data ∨ suffix = "es".data) ∧
          easyWordSet.contains ⟨stem ++ ['e']⟩ then true
      else suffixLoop lower easyWordSet rest
    else suffixLoop lower easyWordSet rest

/-- The `isAllowedVariation(token, easyWordSet)`.  The opaque lexicon
`easyWordSet` is a parameter (a JS `Set` modelled as a list queried by
membership). -/
def isAllowedVariation (token : String) (easyWordSet : List String) : Bool :=
  let lower := normalizeToken token
  if lower.data.isEmpty then true
  else if easyWordSet.contains lower then true
  else if ("'s".data.isSuffixOf lower.data ∧
      easyWordSet.contains ⟨lower.data.take (lower.data.length - 2)⟩) then true
  else suffixLoop lower.data easyWordSet suffixRules

/-- The `findHardWords(text, easyWordSet)`: tokenize, skip short / number-like /
proper-noun-shaped tokens, collect the normalized form of every token that is
not an allowed variation (JS `Set` = duplicate-free list in insertion
order). -/
def findHardWords (text : String) (easyWordSet : List String) : List String :=
  if text.data.isEmpty then []
  else
    (matchLetterApostropheTokens text).foldl
      (fun acc token =>
        if token.length ≤ 2 ∨ isNumberLike token ∨ looksLikeProperNoun token then acc
        else if isAllowedVariation token easyWordSet then acc
        else jsSetAdd acc (normalizeToken token))
      []

/-- The allowed-variation test exactly as claim C8 states it (no minimum stem
length): in the lexicon, or a possessive of a lexicon word, or one of the
seven suffixes strips down to a lexicon stem (with the `e`-insertion variant
for `ing`/`ed`/`es`).  Spec-side definition, for comparison with
`isAllowedVariation`. -/
def claimAllowedNoMinimum (lower : String) (easyWordSet : List String) : Bool :=
  easyWordSet.contains lower ||
  ("'s".data.isSuffixOf lower.data ∧
    easyWordSet.contains ⟨lower.data.take (lower.data.length - 2)⟩) ||
  suffixRules.any (fun rule =>
    rule.1.isSuffixOf lower.data &&
      (let stem := lower.data.take (lower.data.length - rule.1.length)
       easyWordSet.contains ⟨stem⟩ ||
         ((rule.1 = "ing".data || rule.1 = "ed".data || rule.1 = "es".data) &&
           easyWordSet.contains ⟨stem ++ ['e']⟩)))

/-- The allowed-variation test as amended: same as the claim but with the
code's per-suffix minimum stem length (stem longer than 3 for `ing`/`est`,
2 for `ed`/`es`/`er`/`ly`, 1 for `s`), plus the degenerate case that an
empty normalized token is allowed.  Spec-side definition. -/
def claimAllowedWithMinimum (lower : String) (easyWordSet : List String) : Bool :=
  lower.data.isEmpty ||
  easyWordSet.contains lower ||
  ("'s".data.isSuffixOf lower.data ∧
    easyWordSet.contains ⟨lower.data.take (lower.data.length - 2)⟩) ||
  suffixRules.any (fun rule =>
    rule.1.isSuffixOf lower.data &&
      rule.1.length + rule.2 < lower.data.length &&
      (let stem := lower.data.take (lower.data.length - rule.1.length)
       easyWordSet.contains ⟨stem⟩ ||
         ((rule.1 = "ing".data || rule.1 = "ed".data || rule.1 = "es".data) &&
           easyWordSet.contains ⟨stem ++ ['e']⟩)))

/-! ## Easy-language enforcement (`background.js`, lines 1531–1662) -/

/-- A vocabulary entry in the canonical normalized shape produced by
`src/lib/schema.js` (field names as in the JSON schema). -/
structure WordEntry where
  word : String
  «lemma» : String
  pos : String
  cefr : String
  definition_simple : String
  example_simple : String
deriving DecidableEq, Repr

/-- The canonical result shape (`simple_explanation`, `a2_plus_words`,
`notes`, `confidence`). -/
structure ExplainResult where
  simple_explanation : String
  a2_plus_words : List WordEntry
  notes : String
  confidence : Rat
deriving DecidableEq, Repr

/-- The `B2_PLUS_LEVELS` from `background.js`. -/
def B2_PLUS_LEVELS : List String := ["B2", "C1", "C2"]

/-- The `isB2PlusWordEntry`: CEFR level (uppercased) in `B2_PLUS_LEVELS` and
non-empty `definition_simple` and `example_simple`.  (The JS dynamic guard
`typeof item === "object"` always holds for typed entries.) -/
def isB2PlusWordEntry (item : WordEntry) : Bool :=
  B2_PLUS_LEVELS.contains (jsToUpper item.cefr) ∧
    hasText item.definition_simple ∧ hasText item.example_simple

/-- The `keepB2PlusWords`. -/
def keepB2PlusWords (entries : List WordEntry) : List WordEntry :=
  entries.filter isB2PlusWordEntry

/-- The `FALLBACK_STOP_WORDS` from `background.js`. -/
def FALLBACK_STOP_WORDS : List String :=
  ["about", "after", "again", "also", "and", "are", "because", "been",
   "before", "being", "both", "but", "can", "could", "does", "each", "even",
   "from", "have", "having", "into", "just", "like", "made", "many", "more",
   "most", "much", "only", "other", "over", "same", "some", "than", "that",
   "their", "them", "then", "there", "they", "this", "those", "very", "were",
   "what", "when", "where", "which", "while", "with", "would"]

/-- The `EASY_WORD_REPLACEMENTS`, already sorted by descending key length as the
stable sort in `applyEasyWordReplacements` produces (ties keep the object
order of the source table). -/
def EASY_WORD_REPLACEMENTS_SORTED : List (String × String) :=
  [("emblazoned", "with words on it"), ("stationery", "paper and pens"),
   ("confidence", "clear sign"), ("incomplete", "not done"),
   ("alongside", "next to"), ("political", "government"),
   ("emulated", "copied"), ("hometown", "home town"), ("souvenir", "gift"),
   ("likeness", "face"), ("minister", "leader"), ("detected", "found"),
   ("details", "small things"), ("closely", "very carefully"),
   ("slogans", "short words"), ("bearing", "with"), ("former", "past"),
   ("idol", "hero")]

/-- JS `\w` for the `\b` word-boundary assertion. -/
def isWordChar (c : Char) : Bool := isAsciiLetter c ∨ isAsciiDigit c ∨ c = '_'

/-- Case-insensitive prefix test (both sides lowered, per the `i` flag). -/
def ciPrefix : List Char → List Char → Bool
  | [], _ => true
  | _ :: _, [] => false
  | h :: hs, t :: ts => (Char.toLower t = Char.toLower h) ∧ ciPrefix hs ts

/-- One global replacement `text.replace(/\bhard\b/gi, easy)`.  The scan
walks the input one character at a time; `skip` counts input characters of a
just-replaced match that remain to be consumed (their boundary positions are
inside the match, which the regex engine never revisits), and `prev` is the
previous input character for the leading `\b` test. -/
def replaceWordGo (hard easy : List Char) : Nat → Option Char → List Char → List Char
  | _, _, [] => []
  | skip + 1, _, c :: rest => replaceWordGo hard easy skip (some c) rest
  | 0, prev, c :: rest =>
    if (match prev with | none => true | some p => !(isWordChar p)) &&
        !hard.isEmpty && ciPrefix hard (c :: rest) &&
        (match (c :: rest).drop hard.length with
         | [] => true
         | d :: _ => !(isWordChar d)) then
      easy ++ replaceWordGo hard easy (hard.length - 1) (some c) rest
    else c :: replaceWordGo hard easy 0 (some c) rest

/-- The `applyEasyWordReplacements`: apply every table entry in descending key
length order, each as a global case-insensitive word-boundary
replacement. -/
def applyEasyWordReplacements (text : String) : String :=
  EASY_WORD_REPLACEMENTS_SORTED.foldl
    (fun acc entry => ⟨replaceWordGo entry.1.data entry.2.data 0 none acc.data⟩)
    text

/-- The keyword loop of `extractFallbackKeywords`: keep tokens of length ≥ 4
that are neither stop words nor already seen, stopping at `maxCount`. -/
def fallbackKeywordLoop (maxCount : Nat) :
    List String → List String → List String → List String
  | _, keywords, [] => keywords
  | seen, keywords, token :: rest =>
    if token.length < 4 ∨ FALLBACK_STOP_WORDS.contains token ∨ seen.contains token then
      fallbackKeywordLoop maxCount seen keywords rest
    else
      let keywords2 := keywords ++ [token]
      if maxCount ≤ keywords2.length then keywords2
      else fallbackKeywordLoop maxCount (seen ++ [token]) keywords2 rest

/-- The `extractFallbackKeywords(text, maxCount)`.  The regex
`/[a-z]+(?:'[a-z]+)?/g` over the lowercased text coincides with
`TOKEN_REGEX` over the lowercased text (no uppercase ASCII letters remain
after lowering). -/
def extractFallbackKeywords (text : String) (maxCount : Nat) : List String :=
  let tokens := matchLetterApostropheTokens (jsToLower text)
  fallbackKeywordLoop maxCount [] [] tokens

/-- The `buildLocalFallbackExplanation(selectedText)`. -/
def buildLocalFallbackExplanation (selectedText : String) : String :=
  let normalized := trimChars (collapseWs selectedText.data)
  if normalized.isEmpty then "EasyRead could not read this text."
  else
    match extractFallbackKeywords ⟨normalized⟩ 6 with
    | k0 :: k1 :: k2 :: k3 :: _ =>
      "This text talks about " ++ k0 ++ ", " ++ k1 ++ ", " ++ k2 ++ ", and " ++
        k3 ++ ". It tells what happened and why it matters."
    | k0 :: k1 :: _ =>
      "This text talks about " ++ k0 ++ " and " ++ k1 ++
        ". It gives key facts and the main point."
    | _ => "This text has hard words. Please choose a short part."

/-- The `simplifyToEasyText(text, selectedText)`. -/
def simplifyToEasyText (text selectedText : String) : String :=
  let raw := jsTrim text
  if raw.data.isEmpty then ""
  else
    let simplified := trimChars (collapseWs (applyEasyWordReplacements raw).data)
    if simplified.isEmpty then
      if ¬ selectedText.data.isEmpty then buildLocalFallbackExplanation selectedText
      else ""
    else ⟨simplified⟩

/-- The `simplifyNoteText(note)`. -/
def simplifyNoteText (note : String) : String :=
  let raw := jsTrim note
  if raw.data.isEmpty then ""
  else
    let lower := jsToLower raw
    if jsIncludes lower.data "cut off".data ∨ jsIncludes lower.data "incomplete".data ∨
        jsIncludes lower.data "json".data ∨ jsIncludes lower.data "fallback".data ∨
        jsIncludes lower.data "model problem".data ∨
        jsIncludes lower.data "backup answer".data then
      "EasyRead had a model problem. This is a short backup answer."
    else if jsIncludes lower.data "no words above b1".data then
      "EasyRead did not find clear hard words above B1."
    else simplifyToEasyText raw ""

/-- The `enforceEasyLanguage(result, selectedText)`: simplify the explanation and
notes, and rewrite every vocabulary entry's definition and example through
`simplifyToEasyText` with non-empty placeholders.  (The JS dynamic defaults
for a non-object result / non-array word list / non-number confidence
degenerate in the typed model.) -/
def enforceEasyLanguage (result : ExplainResult) (selectedText : String) : ExplainResult :=
  { simple_explanation := simplifyToEasyText result.simple_explanation selectedText,
    a2_plus_words := result.a2_plus_words.map (fun item =>
      { item with
          definition_simple :=
            (fun s => if s = "" then "This word is not easy." else s)
              (simplifyToEasyText item.definition_simple ""),
          example_simple :=
            (fun s => if s = "" then "I see this word here." else s)
              (simplifyToEasyText item.example_simple "") }),
    notes := simplifyNoteText result.notes,
    confidence := result.confidence }

/-- The `appendNote(base, addition)`. -/
def appendNote (base addition : String) : String :=
  let next := jsTrim addition
  if next.data.isEmpty then jsTrim base
  else
    let prior := jsTrim base
    if prior.data.isEmpty then next else prior ++ " " ++ next

/-- The `ensureNonEmptyExplanation(result, selectedText, fallbackNote)`.  (In the
typed model the confidence is always a finite number, so the JS
`typeof`/`isFinite` guard reduces to the `min` branch; `a2_plus_words` is
always an array.) -/
def ensureNonEmptyExplanation (result : ExplainResult) (selectedText : String)
    (fallbackNote : String) : ExplainResult :=
  if hasText result.simple_explanation then result
  else
    { result with
        simple_explanation := buildLocalFallbackExplanation selectedText,
        notes := appendNote result.notes
          (if fallbackNote = "" then
            "EasyRead used backup explanation because model output was empty."
          else fallbackNote),
        confidence := min result.confidence 0.35 }

/-- The `buildLocalFallbackResult(selectedText, fallbackNote)`. -/
def buildLocalFallbackResult (selectedText : String) (fallbackNote : String) : ExplainResult :=
  { simple_explanation := buildLocalFallbackExplanation selectedText,
    a2_plus_words := [],
    notes := simplifyNoteText (jsTrim fallbackNote),
    confidence := 0.2 }

/-- The deferred-words settlement of `runDeferredWordsPass` (`background.js`
lines 1476–1488): the final result pushed to the UI and written to the
cache is `ensureNonEmptyExplanation` of `enforceEasyLanguage` of the base
result with `a2_plus_words := keepB2PlusWords words`. -/
def deferredWordsFinalResult (baseResult : ExplainResult) (words : List WordEntry)
    (finalNotes selectedText : String) : ExplainResult :=
  ensureNonEmptyExplanation
    (enforceEasyLanguage
      { baseResult with a2_plus_words := keepB2PlusWords words, notes := finalNotes }
      selectedText)
    selectedText
    "EasyRead filled a backup explanation because the model returned empty text."

/-! ## Chunking (`splitTextIntoChunks`, `background.js` lines 732–770) -/

/-- The accumulation loop of `splitTextIntoChunks`, over the words of the
normalized text.  `current` is the chunk being built, `chunks` the finished
chunks.  The JS guard `chunks.length >= maxChunks - 1` (tested after the
push, over IEEE numbers where `0 - 1 = -1`) is written
`chunks2.length + 1 ≥ maxChunks`, which is equivalent for every natural
`maxChunks` (`a ≥ m - 1 ↔ a + 1 ≥ m` over the integers). -/
def chunkLoop (targetChars maxChunks : Nat) :
    List (List Char) → List Char → List (List Char) → List (List Char)
  | [], current, chunks => if current.isEmpty then chunks else chunks ++ [current]
  | w :: rest, current, chunks =>
    let next := if current.isEmpty then w else current ++ ' ' :: w
    if targetChars < next.length ∧ ¬ current.isEmpty then
      let chunks2 := chunks ++ [current]
      if maxChunks ≤ chunks2.length + 1 then
        let restChunk := trimChars (joinSpace (w :: rest))
        if restChunk.isEmpty then chunks2 else chunks2 ++ [restChunk]
      else chunkLoop targetChars maxChunks rest w chunks2
    else chunkLoop targetChars maxChunks rest next chunks

/-- The `splitTextIntoChunks(text, targetChars, maxChunks)`: normalize
whitespace, split on single spaces, greedily accumulate words. -/
def splitTextIntoChunks (text : String) (targetChars maxChunks : Nat) : List String :=
  let normalized := trimChars (collapseWs text.data)
  if normalized.isEmpty then []
  else
    (chunkLoop targetChars maxChunks (splitOnChar ' ' normalized) [] []).map
      (fun l => (⟨l⟩ : String))

/-- The `String(text).replace(/\s+/g, " ").trim()` — the normalization the
chunker applies before splitting. -/
def normalizeWhitespaceJs (text : String) : String := ⟨trimChars (collapseWs text.data)⟩

/-- Joining chunks back with single spaces (the reconstruction the spec's
chunking property talks about). -/
def joinWithSingleSpace (chunks : List String) : String :=
  ⟨joinSpace (chunks.map String.data)⟩

/-! ## Copy detection (`isExplanationTooCloseToSource`, lines 1677–1733) -/

/-- The character mask of `replace(/[^a-z0-9\s']/g, " ")` (applied after
lowercasing). -/
def similarityMaskChar (c : Char) : Char :=
  if isAsciiLower c ∨ isAsciiDigit c ∨ jsIsWs c ∨ c = '\'' then c else ' '

/-- The `normalizeSimilarityText`: lowercase, mask everything outside
`[a-z0-9\s']` to spaces, collapse whitespace runs, trim. -/
def normalizeSimilarityText (text : String) : String :=
  ⟨trimChars (collapseWs ((text.data.map Char.toLower).map similarityMaskChar))⟩

/-- The `norm.split(" ").filter(Boolean)`. -/
def similarityTokens (norm : String) : List (List Char) :=
  (splitOnChar ' ' norm.data).filter (fun w => !w.isEmpty)

/-- The window list walked by `buildNgramSet`'s `for` loop: `slice(i, i + n)`
joined with spaces, for `i = 0 .. tokens.length - n`. -/
def ngramWindows (n : Nat) : List (List Char) → List (List Char)
  | [] => if n = 0 then [[]] else []
  | t :: rest =>
    (if n ≤ (t :: rest).length then [joinSpace ((t :: rest).take n)] else []) ++
      ngramWindows n rest

/-- The `buildNgramSet(tokens, n)`: the JS `Set` of the windows, i.e. the
duplicate-free window list in insertion order (empty when fewer than `n`
tokens). -/
def buildNgramSet (tokens : List (List Char)) (n : Nat) : List (List Char) :=
  if tokens.length < n then []
  else (ngramWindows n tokens).foldl jsSetAdd []

/-- The overlap counter loop (`for (const gram of explanation4Grams)`). -/
def countOverlap (explGrams srcGrams : List (List Char)) : Nat :=
  explGrams.foldl (fun acc g => if g ∈ srcGrams then acc + 1 else acc) 0

/-- The `isExplanationTooCloseToSource(explanation, selectedText)`.  The final
float comparison `overlap / explanation4Grams.size >= 0.55` is written
cross-multiplied (`11 * size ≤ 20 * overlap`), exact over the rationals
since the size is positive; the `size > 0 ? … : 0` ternary becomes the
explicit emptiness test. -/
def isExplanationTooCloseToSource (explanation selectedText : String) : Bool :=
  let explanationNorm := normalizeSimilarityText explanation
  let sourceNorm := normalizeSimilarityText selectedText
  if explanationNorm.data.isEmpty || sourceNorm.data.isEmpty then false
  else if explanationNorm = sourceNorm then true
  else if 70 ≤ explanationNorm.length && jsIncludes sourceNorm.data explanationNorm.data then
    true
  else
    let explanationTokens := similarityTokens explanationNorm
    let sourceTokens := similarityTokens sourceNorm
    if explanationTokens.length < 8 || sourceTokens.length < 8 then false
    else
      let source4Grams := buildNgramSet sourceTokens 4
      if source4Grams.isEmpty then false
      else
        let explanation4Grams := buildNgramSet explanationTokens 4
        let overlap := countOverlap explanation4Grams source4Grams
        20 ≤ explanationTokens.length &&
          (if explanation4Grams.length = 0 then false
           else 11 * explanation4Grams.length ≤ 20 * overlap)

/-- The copy condition exactly as claim C2 states it: after normalization the
explanation equals the source, or is a substring of the source above the
length threshold, or shares a 4-gram overlap ratio ≥ 0.55 with the source
when **both** the explanation and the source have at least 20 tokens.
Spec-side definition, for comparison with `isExplanationTooCloseToSource`. -/
def claimCopyCondition (explanation selectedText : String) : Bool :=
  let e := normalizeSimilarityText explanation
  let s := normalizeSimilarityText selectedText
  (e = s) ||
  (70 ≤ e.length && jsIncludes s.data e.data) ||
  (let eTokens := similarityTokens e
   let sTokens := similarityTokens s
   let e4 := buildNgramSet eTokens 4
   let overlap := countOverlap e4 (buildNgramSet sTokens 4)
   20 ≤ eTokens.length && 20 ≤ sTokens.length &&
     (if e4.length = 0 then false else 11 * e4.length ≤ 20 * overlap))

/-! ## Response parsing and normalization (`src/lib/schema.js`)

`JSON.parse` is a host primitive, not repository code.  Parsed JSON values
are modelled by the inductive `Js` below (with `jsUndefined` for JavaScript's
`undefined`, the result of reading an absent field); the parser itself is an
arbitrary function `jsonParse : String → Option Js` that every statement
quantifies over — `none` models a thrown `SyntaxError`. -/

inductive Js where
  | jsUndefined
  | null
  | bool (b : Bool)
  | num (q : Rat)
  | str (s : String)
  | arr (elems : List Js)
  | obj (fields : List (String × Js))

/-- Property read `value[key]` on a parsed JSON value: the last binding wins
(as `JSON.parse` keeps the last duplicate key); absent keys and non-object
values give `undefined`.  (Array index reads never occur with the string
keys used here.) -/
def jsGet (v : Js) (key : String) : Js :=
  match v with
  | .obj fields =>
    match fields.reverse.find? (fun p => p.1 = key) with
    | some p => p.2
    | none => .jsUndefined
  | _ => .jsUndefined

/-- The `typeof v === "object" && v` — the shapes accepted by the
`!parsed || typeof parsed !== "object"` guard. -/
def jsIsObjectLike (v : Js) : Bool :=
  match v with
  | .obj _ => true
  | .arr _ => true
  | _ => false

/-- The `v` is a JS number (for the `typeof value !== "number"` test). -/
def jsIsNum (v : Js) : Bool :=
  match v with
  | .num _ => true
  | _ => false

/-- The `clampConfidence(value)`: non-numbers default to 0.5, numbers are clamped
into `[0, 1]`.  (`NaN` is a float artefact with no rational counterpart;
it falls under the non-number default in this model.) -/
def clampConfidence (v : Js) : Rat :=
  match v with
  | .num q => max 0 (min 1 q)
  | _ => 0.5

/-- The `normalizeString(value)`: trim strings, anything else becomes `""`. -/
def normalizeStringJs (v : Js) : String :=
  match v with
  | .str s => jsTrim s
  | _ => ""

/-- The `POS_VALUES` from `src/lib/constants.js`. -/
def POS_VALUES : List String :=
  ["noun", "verb", "adj", "adv", "prep", "pron", "det", "conj", "other"]

/-- The `CEFR_VALUES` from `src/lib/constants.js`. -/
def CEFR_VALUES : List String := ["A2", "B1", "B2", "C1", "C2", "unknown"]

/-- The `normalizePos(value)`. -/
def normalizePos (v : Js) : String :=
  let pos := jsToLower (normalizeStringJs v)
  if POS_VALUES.contains pos then pos else "other"

/-- The `normalizeCefr(value)`. -/
def normalizeCefr (v : Js) : String :=
  let cefr := jsToUpper (normalizeStringJs v)
  if CEFR_VALUES.contains cefr then cefr else "unknown"

/-- The `normalizeWordItem(item)`: `null` for non-objects and for entries whose
trimmed `word` is empty, otherwise the normalized entry. -/
def normalizeWordItem (item : Js) : Option WordEntry :=
  if jsIsObjectLike item then
    let word := normalizeStringJs (jsGet item "word")
    if word = "" then none
    else some
      { word := word,
        «lemma» :=
          (fun l => if l = "" then jsToLower word else l)
            (normalizeStringJs (jsGet item "lemma")),
        pos := normalizePos (jsGet item "pos"),
        cefr := normalizeCefr (jsGet item "cefr"),
        definition_simple := normalizeStringJs (jsGet item "definition_simple"),
        example_simple := normalizeStringJs (jsGet item "example_simple") }
  else none

/-- The `normalizeWordEntries(value)`: map `normalizeWordItem` over an array and
drop the `null`s; non-arrays give `[]`. -/
def normalizeWordEntries (v : Js) : List WordEntry :=
  match v with
  | .arr elems => elems.filterMap normalizeWordItem
  | _ => []

/-- The `extractJsonObject(text)`: the inclusive slice from the first `{` to the
last `}`, or the thrown error message. -/
def extractJsonObject (text : String) : Except String String :=
  let l := text.data
  match l.indexOf? '{', l.reverse.indexOf? '}' with
  | some start, some revStop =>
    let stop := l.length - 1 - revStop
    if stop ≤ start then .error "No JSON object found in model output."
    else .ok ⟨(l.drop start).take (stop + 1 - start)⟩
  | _, _ => .error "No JSON object found in model output."

/-- The normalization applied to a successfully parsed value (the tail of
`parseAndNormalizeResponse`). -/
def normalizeParsedResponse (parsed : Js) : Except String ExplainResult :=
  if jsIsObjectLike parsed then
    .ok
      { simple_explanation := normalizeStringJs (jsGet parsed "simple_explanation"),
        a2_plus_words := normalizeWordEntries (jsGet parsed "a2_plus_words"),
        notes := normalizeStringJs (jsGet parsed "notes"),
        confidence := clampConfidence (jsGet parsed "confidence") }
  else .error "Parsed result is not an object."

/-- The `parseAndNormalizeResponse(rawText)`: direct parse, then
brace-extraction retry, then failure; successes are normalized. -/
def parseAndNormalizeResponse (jsonParse : String → Option Js) (rawText : String) :
    Except String ExplainResult :=
  match jsonParse rawText with
  | some parsed => normalizeParsedResponse parsed
  | none =>
    match extractJsonObject rawText with
    | .error e => .error e
    | .ok sub =>
      match jsonParse sub with
      | some parsed => normalizeParsedResponse parsed
      | none => .error "JSON.parse failed."

/-! ## Bounded-concurrency mapper (`mapWithConcurrency`, lines 706–730)

The JS function races `safeLimit` async workers over a shared `nextIndex`
cursor.  On the single-threaded event loop, `const current = nextIndex;
nextIndex += 1` executes atomically, and each `await mapper(...)` is a
suspension point; a worker is therefore a loop of two atomic steps — claim
an index, then (once the mapper's promise settles) write its slot.  The
small-step system below makes the interleaving explicit: a schedule picks
which worker steps next, and the claims quantify over all schedules. -/

inductive WorkerPhase where
  | idle
  | running (i : Nat)
  | done
deriving DecidableEq, Repr

structure PoolState (β : Type) where
  nextIndex : Nat
  results : List (Option β)
  claimLog : List Nat
  workers : List WorkerPhase
deriving Repr

def poolInit (β : Type) (n k : Nat) : PoolState β :=
  ⟨0, List.replicate n none, [], List.replicate k .idle⟩

/-- One scheduled step of worker `w`: an idle worker claims the next index
(or retires when the cursor is exhausted); a running worker completes its
mapper call and writes `results[current]`.  Steps of out-of-range or retired
workers do nothing. -/
def poolStep {α β : Type} (items : List α) (mapper : α → β) (st : PoolState β)
    (w : Nat) : PoolState β :=
  match st.workers.get? w with
  | none => st
  | some .done => st
  | some .idle =>
    if st.nextIndex < items.length then
      { st with
          nextIndex := st.nextIndex + 1,
          claimLog := st.claimLog ++ [st.nextIndex],
          workers := st.workers.set w (.running st.nextIndex) }
    else { st with workers := st.workers.set w .done }
  | some (.running i) =>
    { st with
        results := st.results.set i ((items.get? i).map mapper),
        workers := st.workers.set w .idle }

def poolRun {α β : Type} (items : List α) (mapper : α → β) (k : Nat)
    (schedule : List Nat) : PoolState β :=
  schedule.foldl (poolStep items mapper) (poolInit β items.length k)

/-- The `Math.max(1, Math.min(limit, list.length))`. -/
def safeLimit (limit n : Nat) : Nat := max 1 (min limit n)

def allWorkersDone {β : Type} (st : PoolState β) : Bool :=
  st.workers.all (fun ph => match ph with | .done => true | _ => false)

/-- The `mapWithConcurrency(items, limit, mapper)` under a given interleaving:
empty input returns `[]` immediately; otherwise the workers run to the
schedule's end and the `results` array is read off. -/
def mapWithConcurrency {α β : Type} (items : List α) (limit : Nat) (mapper : α → β)
    (schedule : List Nat) : List (Option β) :=
  if items.isEmpty then []
  else (poolRun items mapper (safeLimit limit items.length) schedule).results

/-- Invariant of the worker pool: the results array keeps the input's
length, the worker list keeps its size, the cursor never passes the end,
the claim log records exactly the indices `0..nextIndex-1` in order, every
running worker holds an already-claimed index, every claimed slot is either
written with its mapper value or still held by a running worker, and a
retired worker certifies that the cursor is exhausted. -/
def PoolInv {α β : Type} (items : List α) (mapper : α → β) (k : Nat)
    (st : PoolState β) : Prop :=
  st.results.length = items.length ∧
  st.workers.length = k ∧
  st.nextIndex ≤ items.length ∧
  st.claimLog = List.range st.nextIndex ∧
  (∀ w i, st.workers.get? w = some (.running i) → i < st.nextIndex) ∧
  (∀ i, i < st.nextIndex →
      st.results.get? i = some ((items.get? i).map mapper) ∨
      ∃ w, st.workers.get? w = some (.running i)) ∧
  (∀ w, st.workers.get? w = some .done → items.length ≤ st.nextIndex)

/-! Supporting lemmas: trimming. -/

theorem dropWhile_head_not {p : Char → Bool} :
    ∀ (l : List Char) (c : Char), (l.dropWhile p).head? = some c → p c = false := by
  intro l
  induction l with
  | nil => intro c h; simp [List.dropWhile] at h
  | cons a t ih =>
    intro c h
    by_cases hp : p a
    · rw [List.dropWhile_cons_of_pos hp] at h
      exact ih c h
    · rw [List.dropWhile_cons_of_neg hp] at h
      simp at h
      subst h
      exact Bool.eq_false_iff.mpr hp

theorem dropWhile_eq_self_of_head {p : Char → Bool} (l : List Char)
    (h : ∀ c, l.head? = some c → p c = false) : l.dropWhile p = l := by
  cases l with
  | nil => rfl
  | cons a t =>
    have : p a = false := h a rfl
    simp [List.dropWhile, this]

theorem dropWhile_ne_nil_of_mem {p : Char → Bool} :
    ∀ (l : List Char) (c : Char), c ∈ l → p c = false → l.dropWhile p ≠ [] := by
  intro l
  induction l with
  | nil => intro c hc; simp at hc
  | cons a t ih =>
    intro c hc hp
    by_cases hpa : p a
    · rw [List.dropWhile_cons_of_pos hpa]
      rcases List.mem_cons.mp hc with rfl | hct
      · exact absurd hpa (Bool.eq_false_iff.mp hp)
      · exact ih c hct hp
    · rw [List.dropWhile_cons_of_neg hpa]
      simp

/-- The result of `trimChars` is a prefix of the left-trimmed list. -/
theorem trimChars_prefix_dropWhile (l : List Char) :
    trimChars l <+: l.dropWhile jsIsWs := by
  unfold trimChars
  have h : ((l.dropWhile jsIsWs).reverse.dropWhile jsIsWs).reverse.reverse <:+
      (l.dropWhile jsIsWs).reverse := by
    simpa using List.dropWhile_suffix (l := (l.dropWhile jsIsWs).reverse) jsIsWs
  exact List.reverse_suffix.mp h

/-- The list `trimChars l` is obtained from `l` by removing characters only
at the two ends: it is an infix of `l`. -/
theorem trimChars_within (l : List Char) : trimChars l <:+: l :=
  (trimChars_prefix_dropWhile l).isInfix.trans (List.dropWhile_suffix jsIsWs).isInfix

theorem trimChars_head_not (l : List Char) :
    ∀ c, (trimChars l).head? = some c → jsIsWs c = false := by
  intro c hc
  obtain ⟨t, ht⟩ := trimChars_prefix_dropWhile l
  have hhead : (l.dropWhile jsIsWs).head? = some c := by
    rw [← ht]
    cases h : trimChars l with
    | nil => rw [h] at hc; simp at hc
    | cons x xs =>
      rw [h] at hc
      simp at hc
      subst hc
      rfl
  exact dropWhile_head_not l c hhead

theorem trimChars_getLast_not (l : List Char) :
    ∀ c, (trimChars l).getLast? = some c → jsIsWs c = false := by
  intro c hc
  unfold trimChars at hc
  rw [List.getLast?_reverse] at hc
  exact dropWhile_head_not _ c hc

theorem trimChars_eq_self (l : List Char)
    (hhead : ∀ c, l.head? = some c → jsIsWs c = false)
    (hlast : ∀ c, l.getLast? = some c → jsIsWs c = false) : trimChars l = l := by
  unfold trimChars
  rw [dropWhile_eq_self_of_head l hhead]
  rw [dropWhile_eq_self_of_head l.reverse (by
    intro c h
    rw [← List.getLast?_reverse] at h
    simp at h
    exact hlast c h)]
  simp

theorem trimChars_idem (l : List Char) : trimChars (trimChars l) = trimChars l :=
  trimChars_eq_self _ (trimChars_head_not l) (trimChars_getLast_not l)

theorem trimChars_ne_nil (l : List Char) (c : Char) (hc : c ∈ l) (hws : jsIsWs c = false)
    (hhead : ∀ d, l.head? = some d → jsIsWs d = false) : trimChars l ≠ [] := by
  unfold trimChars
  intro h
  rw [dropWhile_eq_self_of_head l hhead] at h
  rw [List.reverse_eq_nil_iff] at h
  exact dropWhile_ne_nil_of_mem l.reverse c (by simpa using hc) hws h

theorem hasText_mk_trimChars (l : List Char) (h : trimChars l ≠ []) :
    hasText ⟨trimChars l⟩ = true := by
  have : (jsTrim ⟨trimChars l⟩).data = trimChars l := by
    show trimChars (trimChars l) = trimChars l
    exact trimChars_idem l
  simp [hasText, this, h]

theorem hasText_of_head (s : String) (c : Char) (hd : s.data.head? = some c)
    (hws : jsIsWs c = false) : hasText s = true := by
  have hmem : c ∈ s.data := by
    cases hl : s.data with
    | nil => rw [hl] at hd; simp at hd
    | cons x xs => rw [hl] at hd; simp at hd; subst hd; simp
  have hhead : ∀ d, s.data.head? = some d → jsIsWs d = false := by
    intro d h
    rw [hd] at h
    injection h with h
    subst h
    exact hws
  have : trimChars s.data ≠ [] := trimChars_ne_nil s.data c hmem hws hhead
  simpa [hasText, jsTrim] using this

/-! Claim C3: selection-length validation. -/

/-- C3 — For every request payload: a trimmed selection longer than
`HARD_MAX_CHARS = 12000` is rejected with the deterministic
`SELECTION_TOO_LONG` error citing both the actual length and the maximum,
and `handleExplainRequest` returns that rejection with the orchestrator
state untouched (in particular no upstream invocation is counted); an empty
trimmed selection is rejected with the `NO_SELECTION` validation error, the
state again untouched; and a selection of exactly `HARD_MAX_CHARS` passes
this validation. -/
theorem selection_validation_bounds (raw : Option String) :
    ((normalizeSelection raw).length > HARD_MAX_CHARS →
      validateSelection raw = .error
        ⟨"Selection is too long (" ++ toString (normalizeSelection raw).length ++
          " chars). Max is " ++ toString HARD_MAX_CHARS ++ ".",
         "SELECTION_TOO_LONG", false⟩ ∧
      ∀ (st : OrchState) (origin mode : String),
        beginExplainRequest st raw origin mode =
          (.rejected ⟨"Selection is too long (" ++ toString (normalizeSelection raw).length ++
              " chars). Max is " ++ toString HARD_MAX_CHARS ++ ".",
            "SELECTION_TOO_LONG", false⟩, st)) ∧
    (normalizeSelection raw = "" →
      validateSelection raw = .error ⟨"Please select text first.", "NO_SELECTION", false⟩ ∧
      ∀ (st : OrchState) (origin mode : String),
        beginExplainRequest st raw origin mode =
          (.rejected ⟨"Please select text first.", "NO_SELECTION", false⟩, st)) ∧
    ((normalizeSelection raw).length = HARD_MAX_CHARS →
      validateSelection raw = .ok (normalizeSelection raw)) := by
  refine ⟨?_, ?_, ?_⟩
  · intro hlong
    have hne : normalizeSelection raw ≠ "" := by
      intro h
      rw [h] at hlong
      simp [String.length] at hlong
    have hval : validateSelection raw = .error
        ⟨"Selection is too long (" ++ toString (normalizeSelection raw).length ++
          " chars). Max is " ++ toString HARD_MAX_CHARS ++ ".",
         "SELECTION_TOO_LONG", false⟩ := by
      unfold validateSelection
      simp only [hne, if_false, hlong, if_true]
    refine ⟨hval, ?_⟩
    intro st origin mode
    unfold beginExplainRequest
    rw [hval]
  · intro hempty
    have hval : validateSelection raw =
        .error ⟨"Please select text first.", "NO_SELECTION", false⟩ := by
      unfold validateSelection
      simp only [hempty, if_true]
    refine ⟨hval, ?_⟩
    intro st origin mode
    unfold beginExplainRequest
    rw [hval]
  · intro hexact
    have hne : normalizeSelection raw ≠ "" := by
      intro h
      rw [h] at hexact
      simp [String.length, HARD_MAX_CHARS] at hexact
    have hnotlong : ¬ (normalizeSelection raw).length > HARD_MAX_CHARS := by
      omega
    unfold validateSelection
    simp only [hne, if_false, hnotlong]

theorem dropWhile_replicate_of_neg {p : Char → Bool} (c : Char) (hp : p c = false) :
    ∀ n, (List.replicate n c).dropWhile p = List.replicate n c := by
  intro n
  cases n with
  | zero => rfl
  | succ m =>
    rw [List.replicate_succ]
    simp [List.dropWhile, hp]

theorem normalizeSelection_replicate_a (n : Nat) :
    normalizeSelection (some ⟨List.replicate n 'a'⟩) = ⟨List.replicate n 'a'⟩ := by
  show jsTrim ⟨List.replicate n 'a'⟩ = ⟨List.replicate n 'a'⟩
  have hws : jsIsWs 'a' = false := by decide
  unfold jsTrim
  congr 1
  show trimChars (List.replicate n 'a') = List.replicate n 'a'
  unfold trimChars
  rw [dropWhile_replicate_of_neg 'a' hws n, List.reverse_replicate,
    dropWhile_replicate_of_neg 'a' hws n, List.reverse_replicate]

/-- Witness for C3 at concrete selections: 12001 copies of `'a'` are
rejected with the deterministic message, the empty selection is rejected
with the validation error, and exactly 12000 copies pass validation. -/
theorem selection_validation_bounds_witness :
    validateSelection (some ⟨List.replicate 12001 'a'⟩) = .error
      ⟨"Selection is too long (12001 chars). Max is 12000.",
       "SELECTION_TOO_LONG", false⟩ ∧
    validateSelection (some "") = .error ⟨"Please select text first.", "NO_SELECTION", false⟩ ∧
    validateSelection (some ⟨List.replicate 12000 'a'⟩) = .ok ⟨List.replicate 12000 'a'⟩ := by
  have hlen1 : (normalizeSelection (some ⟨List.replicate 12001 'a'⟩)).length = 12001 := by
    rw [normalizeSelection_replicate_a]
    show (List.replicate 12001 'a').length = 12001
    rw [List.length_replicate]
  have hlen2 : (normalizeSelection (some ⟨List.replicate 12000 'a'⟩)).length = 12000 := by
    rw [normalizeSelection_replicate_a]
    show (List.replicate 12000 'a').length = 12000
    rw [List.length_replicate]
  refine ⟨?_, ?_, ?_⟩
  · have h := (selection_validation_bounds (some ⟨List.replicate 12001 'a'⟩)).1
      (by rw [hlen1]; decide) |>.1
    rw [hlen1] at h
    exact h
  · exact ((selection_validation_bounds (some "")).2.1 (by rfl)).1
  · have h := (selection_validation_bounds (some ⟨List.replicate 12000 'a'⟩)).2.2
      (by rw [hlen2]; rfl)
    rw [normalizeSelection_replicate_a] at h
    exact h

/-! Claim C5: exponential backoff. -/

theorem backoffGo_succ_ok {α : Type} {action : Nat → Except JsError α} {jitter : Nat → Nat}
    {attempt : Nat} {v : α} (hact : action attempt = .ok v)
    (r waitMs : Nat) (last : Option JsError) (sleeps : List Nat) :
    backoffGo action jitter (r + 1) attempt waitMs last sleeps =
      ⟨.ok v, attempt, sleeps.reverse⟩ := by
  unfold backoffGo
  rw [hact]

theorem backoffGo_succ_error {α : Type} {action : Nat → Except JsError α} {jitter : Nat → Nat}
    {attempt : Nat} {e : JsError} (hact : action attempt = .error e)
    (r waitMs : Nat) (last : Option JsError) (sleeps : List Nat) :
    backoffGo action jitter (r + 1) attempt waitMs last sleeps =
      (if e.retriable = true ∧ r ≠ 0 then
        backoffGo action jitter r (attempt + 1) (waitMs * 2) (some e)
          ((waitMs + jitter attempt) :: sleeps)
      else ⟨.error e, attempt, sleeps.reverse⟩) := by
  conv_lhs => unfold backoffGo
  rw [hact]

theorem backoffGo_attempts_le {α : Type} (action : Nat → Except JsError α)
    (jitter : Nat → Nat) :
    ∀ (remaining attempt waitMs : Nat) (last : Option JsError) (sleeps : List Nat),
      (backoffGo action jitter remaining attempt waitMs last sleeps).attemptsUsed ≤
        attempt - 1 + remaining := by
  intro remaining
  induction remaining with
  | zero =>
    intro attempt waitMs last sleeps
    simp [backoffGo]
  | succ r ih =>
    intro attempt waitMs last sleeps
    cases hact : action attempt with
    | ok v =>
      rw [backoffGo_succ_ok hact]
      show attempt ≤ attempt - 1 + (r + 1)
      omega
    | error e =>
      rw [backoffGo_succ_error hact]
      by_cases hcond : e.retriable = true ∧ r ≠ 0
      · rw [if_pos hcond]
        have := ih (attempt + 1) (waitMs * 2) (some e) ((waitMs + jitter attempt) :: sleeps)
        omega
      · rw [if_neg hcond]
        show attempt ≤ attempt - 1 + (r + 1)
        omega

theorem backoffGo_first_ok {α : Type} (action : Nat → Except JsError α)
    (jitter : Nat → Nat) (v : α) :
    ∀ (d remaining attempt waitMs : Nat) (last : Option JsError) (sleeps : List Nat),
      d < remaining →
      (∀ j, j < d → isRetriableFailure (action (attempt + j)) = true) →
      action (attempt + d) = .ok v →
      backoffGo action jitter remaining attempt waitMs last sleeps =
        ⟨.ok v, attempt + d,
          sleeps.reverse ++
            (List.range d).map (fun i => waitMs * 2 ^ i + jitter (attempt + i))⟩ := by
  intro d
  induction d with
  | zero =>
    intro remaining attempt waitMs last sleeps hd _ hok
    obtain ⟨r, rfl⟩ : ∃ r, remaining = r + 1 := ⟨remaining - 1, by omega⟩
    simp only [Nat.add_zero] at hok
    rw [backoffGo_succ_ok hok]
    simp
  | succ d ih =>
    intro remaining attempt waitMs last sleeps hd hfail hok
    obtain ⟨r, rfl⟩ : ∃ r, remaining = r + 1 := ⟨remaining - 1, by omega⟩
    have h0 : isRetriableFailure (action attempt) = true := by
      have := hfail 0 (by omega)
      simpa using this
    cases hact : action attempt with
    | ok w => rw [hact] at h0; simp [isRetriableFailure] at h0
    | error e =>
      rw [hact] at h0
      have hret : e.retriable = true := by simpa [isRetriableFailure] using h0
      have hr : r ≠ 0 := by omega
      rw [backoffGo_succ_error hact, if_pos ⟨hret, hr⟩]
      have ihh := ih r (attempt + 1) (waitMs * 2) (some e)
        ((waitMs + jitter attempt) :: sleeps) (by omega)
        (by
          intro j hj
          have := hfail (j + 1) (by omega)
          have harg : attempt + (j + 1) = attempt + 1 + j := by omega
          rwa [harg] at this)
        (by
          have harg : attempt + (d + 1) = attempt + 1 + d := by omega
          rwa [harg] at hok)
      rw [ihh]
      have hsleeps :
          ((waitMs + jitter attempt) :: sleeps).reverse ++
            (List.range d).map (fun i => waitMs * 2 * 2 ^ i + jitter (attempt + 1 + i)) =
          sleeps.reverse ++
            (List.range (d + 1)).map (fun i => waitMs * 2 ^ i + jitter (attempt + i)) := by
        rw [List.range_succ_eq_map, List.map_cons, List.map_map, List.reverse_cons,
          List.append_assoc]
        congr 1
        rw [List.singleton_append]
        congr 1
        · simp
        · apply List.map_congr_left
          intro i _
          simp only [Function.comp_apply]
          have h2 : waitMs * 2 * 2 ^ i = waitMs * 2 ^ (i + 1) := by ring
          have h3 : attempt + 1 + i = attempt + (i + 1) := by omega
          rw [h2, h3]
      have hatt : attempt + 1 + d = attempt + (d + 1) := by omega
      rw [hsleeps, hatt]

theorem backoffGo_first_fatal {α : Type} (action : Nat → Except JsError α)
    (jitter : Nat → Nat) (e : JsError) (hre : e.retriable = false) :
    ∀ (d remaining attempt waitMs : Nat) (last : Option JsError) (sleeps : List Nat),
      d < remaining →
      (∀ j, j < d → isRetriableFailure (action (attempt + j)) = true) →
      action (attempt + d) = .error e →
      backoffGo action jitter remaining attempt waitMs last sleeps =
        ⟨.error e, attempt + d,
          sleeps.reverse ++
            (List.range d).map (fun i => waitMs * 2 ^ i + jitter (attempt + i))⟩ := by
  intro d
  induction d with
  | zero =>
    intro remaining attempt waitMs last sleeps hd _ herr
    obtain ⟨r, rfl⟩ : ∃ r, remaining = r + 1 := ⟨remaining - 1, by omega⟩
    simp only [Nat.add_zero] at herr
    rw [backoffGo_succ_error herr]
    rw [if_neg (by simp [hre])]
    simp
  | succ d ih =>
    intro remaining attempt waitMs last sleeps hd hfail herr
    obtain ⟨r, rfl⟩ : ∃ r, remaining = r + 1 := ⟨remaining - 1, by omega⟩
    have h0 : isRetriableFailure (action attempt) = true := by
      have := hfail 0 (by omega)
      simpa using this
    cases hact : action attempt with
    | ok w => rw [hact] at h0; simp [isRetriableFailure] at h0
    | error e2 =>
      rw [hact] at h0
      have hret : e2.retriable = true := by simpa [isRetriableFailure] using h0
      have hr : r ≠ 0 := by omega
      rw [backoffGo_succ_error hact, if_pos ⟨hret, hr⟩]
      have ihh := ih r (attempt + 1) (waitMs * 2) (some e2)
        ((waitMs + jitter attempt) :: sleeps) (by omega)
        (by
          intro j hj
          have := hfail (j + 1) (by omega)
          have harg : attempt + (j + 1) = attempt + 1 + j := by omega
          rwa [harg] at this)
        (by
          have harg : attempt + (d + 1) = attempt + 1 + d := by omega
          rwa [harg] at herr)
      rw [ihh]
      have hsleeps :
          ((waitMs + jitter attempt) :: sleeps).reverse ++
            (List.range d).map (fun i => waitMs * 2 * 2 ^ i + jitter (attempt + 1 + i)) =
          sleeps.reverse ++
            (List.range (d + 1)).map (fun i => waitMs * 2 ^ i + jitter (attempt + i)) := by
        rw [List.range_succ_eq_map, List.map_cons, List.map_map, List.reverse_cons,
          List.append_assoc]
        congr 1
        rw [List.singleton_append]
        congr 1
        · simp
        · apply List.map_congr_left
          intro i _
          simp only [Function.comp_apply]
          have h2 : waitMs * 2 * 2 ^ i = waitMs * 2 ^ (i + 1) := by ring
          have h3 : attempt + 1 + i = attempt + (i + 1) := by omega
          rw [h2, h3]
      have hatt : attempt + 1 + d = attempt + (d + 1) := by omega
      rw [hsleeps, hatt]

/-- C5 — `withExponentialBackoff(action, maxAttempts)` invokes `action` at
most `maxAttempts` times; the first success's value is returned after
exactly the failed attempts before it, with sleeps of `600·2^(k-1)` ms plus
jitter between consecutive attempts; a non-retriable error at any attempt is
rethrown immediately, with no further attempts and no sleep after it; and in
the spec's example scenario (attempts 1–4 `ProxyRetryable`, attempt 5 would
succeed) a cap of 3 attempts surfaces the retriable proxy error after
exactly 3 invocations, never reaching attempts 4 or 5. -/
theorem withExponentialBackoff_spec {α : Type} (action : Nat → Except JsError α)
    (maxAttempts : Nat) (jitter : Nat → Nat) :
    ((withExponentialBackoff action maxAttempts jitter).attemptsUsed ≤ maxAttempts) ∧
    (∀ (k : Nat) (v : α),
      1 ≤ k → k ≤ maxAttempts →
      (∀ j, j < k - 1 → isRetriableFailure (action (j + 1)) = true) →
      action k = .ok v →
      withExponentialBackoff action maxAttempts jitter =
        ⟨.ok v, k, (List.range (k - 1)).map (fun i => 600 * 2 ^ i + jitter (i + 1))⟩) ∧
    (∀ (k : Nat) (e : JsError),
      1 ≤ k → k ≤ maxAttempts →
      (∀ j, j < k - 1 → isRetriableFailure (action (j + 1)) = true) →
      action k = .error e → e.retriable = false →
      withExponentialBackoff action maxAttempts jitter =
        ⟨.error e, k, (List.range (k - 1)).map (fun i => 600 * 2 ^ i + jitter (i + 1))⟩) ∧
    (∀ (jit : Nat → Nat),
      withExponentialBackoff proxyScenarioAction 3 jit =
        ⟨.error ⟨"Upstream returned 503.", "PROXY_RETRYABLE", true⟩, 3,
          [600 + jit 1, 1200 + jit 2]⟩) := by
  refine ⟨?_, ?_, ?_, ?_⟩
  · have := backoffGo_attempts_le action jitter maxAttempts 1 600 none []
    simpa [withExponentialBackoff] using this
  · intro k v hk1 hkmax hfail hok
    have h := backoffGo_first_ok action jitter v (k - 1) maxAttempts 1 600 none []
      (by omega)
      (by
        intro j hj
        have := hfail j hj
        have harg : 1 + j = j + 1 := by omega
        rwa [harg])
      (by
        have harg : 1 + (k - 1) = k := by omega
        rwa [harg])
    rw [withExponentialBackoff, h]
    congr 1
    · omega
    · simp only [List.reverse_nil, List.nil_append]
      apply List.map_congr_left
      intro i _
      rw [Nat.add_comm 1 i]
  · intro k e hk1 hkmax hfail herr hre
    have h := backoffGo_first_fatal action jitter e hre (k - 1) maxAttempts 1 600 none []
      (by omega)
      (by
        intro j hj
        have := hfail j hj
        have harg : 1 + j = j + 1 := by omega
        rwa [harg])
      (by
        have harg : 1 + (k - 1) = k := by omega
        rwa [harg])
    rw [withExponentialBackoff, h]
    congr 1
    · omega
    · simp only [List.reverse_nil, List.nil_append]
      apply List.map_congr_left
      intro i _
      rw [Nat.add_comm 1 i]
  · intro jit
    rfl

/-- Witness for C5: a concrete action failing retriably once then
succeeding, under a cap of 3, returns the success after 2 invocations with a
single 607 ms sleep (jitter constantly 7); and the concrete example-scenario
instance. -/
theorem withExponentialBackoff_spec_witness :
    (withExponentialBackoff
        (fun a => if a = 1 then .error ⟨"t", "PR", true⟩ else .ok (9 : Nat)) 3
        (fun _ => 7) =
      ⟨.ok 9, 2, [607]⟩) ∧
    (withExponentialBackoff proxyScenarioAction 3 (fun _ => 7) =
      ⟨.error ⟨"Upstream returned 503.", "PROXY_RETRYABLE", true⟩, 3, [607, 1207]⟩) := by
  constructor
  · have h := (withExponentialBackoff_spec
        (fun a => if a = 1 then .error ⟨"t", "PR", true⟩ else .ok (9 : Nat)) 3
        (fun _ => 7)).2.1 2 9 (by decide) (by decide)
      (by decide) rfl
    simpa using h
  · have h := (withExponentialBackoff_spec
        (fun a : Nat => (.ok 0 : Except JsError Nat)) 3 (fun _ => 7)).2.2.2 (fun _ => 7)
    simpa using h

/-! Claim C6: cache-key fingerprints. -/

/-- C6 counterexample — two distinct `(origin, text, mode, model, version)`
tuples produce the same fingerprint: the `"||"`-joined serialization of
`("a|", "b", …)` and `("a", "|b", …)` is the same string, so `buildCacheKey`
collides on them (whatever the digest does).  This refutes the claim that
distinct input combinations always produce distinct fingerprints. -/
theorem buildCacheKey_not_injective :
    buildCacheKey "a|" "b" "m" "mo" "v" = buildCacheKey "a" "|b" "m" "mo" "v" ∧
    (("a|", "b") ≠ (("a", "|b") : String × String)) := by
  constructor
  · rfl
  · decide

theorem pipePair_append_inj :
    ∀ (a b r s : List Char), '|' ∉ a → '|' ∉ b →
      a ++ '|' :: '|' :: r = b ++ '|' :: '|' :: s → a = b ∧ r = s := by
  intro a
  induction a with
  | nil =>
    intro b r s _ hb heq
    cases b with
    | nil => simpa using heq
    | cons x xs =>
      simp only [List.nil_append, List.cons_append, List.cons.injEq] at heq
      exact absurd (heq.1 ▸ List.mem_cons_self x xs) (by simpa [← heq.1] using hb)
  | cons y ys ih =>
    intro b r s ha hb heq
    cases b with
    | nil =>
      simp only [List.nil_append, List.cons_append, List.cons.injEq] at heq
      exact absurd (heq.1 ▸ List.mem_cons_self y ys) (by simpa [heq.1] using ha)
    | cons x xs =>
      simp only [List.cons_append, List.cons.injEq] at heq
      obtain ⟨h1, h2⟩ := heq
      have ha' : '|' ∉ ys := fun h => ha (List.mem_cons_of_mem y h)
      have hb' : '|' ∉ xs := fun h => hb (List.mem_cons_of_mem x h)
      obtain ⟨he, hr⟩ := ih xs r s ha' hb' h2
      exact ⟨by rw [h1, he], hr⟩

theorem string_data_inj {s t : String} (h : s.data = t.data) : s = t := by
  cases s
  cases t
  exact congrArg String.mk h

theorem intercalate5_data (a b c d e : String) :
    (String.intercalate "||" [a, b, c, d, e]).data =
      a.data ++ '|' :: '|' :: (b.data ++ '|' :: '|' :: (c.data ++ '|' :: '|' ::
        (d.data ++ '|' :: '|' :: e.data))) := by
  show ((((a ++ "||" ++ b) ++ "||" ++ c) ++ "||" ++ d) ++ "||" ++ e).data = _
  simp only [String.data_append]
  show _ ++ ['|', '|'] ++ _ ++ ['|', '|'] ++ _ ++ ['|', '|'] ++ _ ++ ['|', '|'] ++ _ = _
  simp [List.append_assoc]

/-- C6 as amended — `buildCacheKey` is a pure function of its five inputs
(determinism is inherent in the model), and the fingerprint identifies the
input combination uniquely **provided no field contains the delimiter
character `'|'`**: under that proviso, equal fingerprints force equal
`(origin, text, mode, model, version)` tuples.  (Without the proviso the
serialization itself collides — see the counterexample.) -/
theorem buildCacheKey_injective_on_pipe_free
    (p1 s1 m1 mo1 v1 p2 s2 m2 mo2 v2 : String)
    (hp1 : '|' ∉ p1.data) (hs1 : '|' ∉ s1.data) (hm1 : '|' ∉ m1.data)
    (hmo1 : '|' ∉ mo1.data) (hv1 : '|' ∉ v1.data)
    (hp2 : '|' ∉ p2.data) (hs2 : '|' ∉ s2.data) (hm2 : '|' ∉ m2.data)
    (hmo2 : '|' ∉ mo2.data) (hv2 : '|' ∉ v2.data)
    (heq : buildCacheKey p1 s1 m1 mo1 v1 = buildCacheKey p2 s2 m2 mo2 v2) :
    p1 = p2 ∧ s1 = s2 ∧ m1 = m2 ∧ mo1 = mo2 ∧ v1 = v2 := by
  have hdata : (String.intercalate "||" [p1, s1, m1, mo1, v1]).data =
      (String.intercalate "||" [p2, s2, m2, mo2, v2]).data := by
    rw [show String.intercalate "||" [p1, s1, m1, mo1, v1] =
        buildCacheKey p1 s1 m1 mo1 v1 from rfl,
      show String.intercalate "||" [p2, s2, m2, mo2, v2] =
        buildCacheKey p2 s2 m2 mo2 v2 from rfl, heq]
  rw [intercalate5_data, intercalate5_data] at hdata
  obtain ⟨e1, hdata⟩ := pipePair_append_inj _ _ _ _ hp1 hp2 hdata
  obtain ⟨e2, hdata⟩ := pipePair_append_inj _ _ _ _ hs1 hs2 hdata
  obtain ⟨e3, hdata⟩ := pipePair_append_inj _ _ _ _ hm1 hm2 hdata
  obtain ⟨e4, hdata⟩ := pipePair_append_inj _ _ _ _ hmo1 hmo2 hdata
  exact ⟨string_data_inj e1, string_data_inj e2, string_data_inj e3,
    string_data_inj e4, string_data_inj hdata⟩

/-- Witness for C6 (amended) at concrete pipe-free fields. -/
theorem buildCacheKey_injective_witness :
    ("https://example.com" : String) = "https://example.com" ∧
    ("some selected text" : String) = "some selected text" ∧
    ("balanced" : String) = "balanced" ∧
    ("gpt-5-nano" : String) = "gpt-5-nano" ∧
    ("easyread-mvp-2026-02" : String) = "easyread-mvp-2026-02" :=
  buildCacheKey_injective_on_pipe_free
    "https://example.com" "some selected text" "balanced" "gpt-5-nano" "easyread-mvp-2026-02"
    "https://example.com" "some selected text" "balanced" "gpt-5-nano" "easyread-mvp-2026-02"
    (by decide) (by decide) (by decide) (by decide) (by decide)
    (by decide) (by decide) (by decide) (by decide) (by decide)
    rfl

/-! Claim C9: in-flight coalescing. -/

/-- C9 counterexample — two concurrent identical requests for the short
valid selection `"ab"` (same fingerprint, empty cache) issue **two** upstream
pipeline invocations, not one: because `FAST_SINGLE_CALL_MAX_CHARS = 0`
while validation rejects empty selections, `isFastSingleCallPath` is false
even for the shortest valid selection, so neither request registers in or
joins the in-flight registry (`everRegistered` stays `false`). -/
theorem inflight_coalescing_counterexample :
    (runTwoConcurrentIdenticalRequests (some "ab") "https://example.com" "balanced").1.upstreamCalls
      = 2 ∧
    ¬ (runTwoConcurrentIdenticalRequests (some "ab") "https://example.com" "balanced").1.upstreamCalls
      = 1 ∧
    (runTwoConcurrentIdenticalRequests (some "ab") "https://example.com" "balanced").1.everRegistered
      = false ∧
    isFastSingleCallPath "ab" = false := by
  refine ⟨by decide, by decide, by decide, by decide⟩

/-- C9 as amended — the fast/short path is unreachable: every selection that
passes validation is non-empty, hence longer than
`FAST_SINGLE_CALL_MAX_CHARS = 0`, so `isFastSingleCallPath` is false; the
in-flight registry is therefore never consulted or populated, and two
concurrent identical uncached requests each issue their own upstream
invocation (two for the pair), leaving the registry empty throughout. -/
theorem inflight_registry_never_used (raw : Option String) (sel : String)
    (hok : validateSelection raw = .ok sel) :
    isFastSingleCallPath sel = false ∧
    ∀ (origin mode : String),
      (runTwoConcurrentIdenticalRequests raw origin mode).1.upstreamCalls = 2 ∧
      (runTwoConcurrentIdenticalRequests raw origin mode).1.everRegistered = false ∧
      (runTwoConcurrentIdenticalRequests raw origin mode).1.inflight = [] := by
  have hsel : sel = normalizeSelection raw ∧ normalizeSelection raw ≠ "" := by
    unfold validateSelection at hok
    by_cases h1 : normalizeSelection raw = ""
    · simp only [h1, if_true] at hok
      cases hok
    · by_cases h2 : (normalizeSelection raw).length > HARD_MAX_CHARS
      · simp only [h1, if_false, h2, if_true] at hok
        cases hok
      · simp only [h1, if_false, h2] at hok
        cases hok
        exact ⟨rfl, h1⟩
  have hfast : isFastSingleCallPath sel = false := by
    unfold isFastSingleCallPath FAST_SINGLE_CALL_MAX_CHARS
    have hne : sel.data ≠ [] := by
      intro h
      exact hsel.2 (by rw [← hsel.1]; exact string_data_inj h)
    have hlen : 0 < sel.length := by
      cases hd : sel.data with
      | nil => exact absurd hd hne
      | cons c t =>
        show 0 < sel.data.length
        rw [hd]
        simp
    simp only [decide_eq_false_iff_not]
    omega
  refine ⟨hfast, ?_⟩
  intro origin mode
  unfold runTwoConcurrentIdenticalRequests beginExplainRequest
  rw [hok]
  simp [hfast, finishExplainRequest]

/-- Witness for C9 (amended) at the concrete valid selection `"ab"`. -/
theorem inflight_registry_never_used_witness :
    isFastSingleCallPath "ab" = false ∧
    (runTwoConcurrentIdenticalRequests (some "ab") "https://example.com" "balanced").1.upstreamCalls = 2 ∧
    (runTwoConcurrentIdenticalRequests (some "ab") "https://example.com" "balanced").1.everRegistered = false ∧
    (runTwoConcurrentIdenticalRequests (some "ab") "https://example.com" "balanced").1.inflight = [] := by
  have h := inflight_registry_never_used (some "ab") "ab" rfl
  exact ⟨h.1, h.2 "https://example.com" "balanced"⟩

/-! Claim C4: the B2+ vocabulary invariant. -/

theorem buildLocalFallbackExplanation_hasText (sel : String) :
    hasText (buildLocalFallbackExplanation sel) = true := by
  unfold buildLocalFallbackExplanation
  cases h : (trimChars (collapseWs sel.data)).isEmpty with
  | true =>
    simp only [h, if_true]
    decide
  | false =>
    simp only [h, Bool.false_eq_true, if_false]
    split
    · exact hasText_of_head _ 'T' rfl (by decide)
    · exact hasText_of_head _ 'T' rfl (by decide)
    · decide

theorem simplifyToEasyText_empty_or_hasText (t sel : String) :
    simplifyToEasyText t sel = "" ∨ hasText (simplifyToEasyText t sel) = true := by
  unfold simplifyToEasyText
  cases h1 : (jsTrim t).data.isEmpty with
  | true => left; simp [h1]
  | false =>
    simp only [h1, Bool.false_eq_true, if_false]
    cases h2 : (trimChars (collapseWs (applyEasyWordReplacements (jsTrim t)).data)).isEmpty with
    | true =>
      simp only [h2, if_true]
      cases h3 : sel.data.isEmpty with
      | true => left; simp [h3]
      | false =>
        right
        rw [if_pos (by simp [h3])]
        exact buildLocalFallbackExplanation_hasText sel
    | false =>
      right
      simp only [h2, Bool.false_eq_true, if_false]
      exact hasText_mk_trimChars _ (by
        intro hnil
        rw [hnil] at h2
        simp at h2)

theorem ensureNonEmptyExplanation_words (r : ExplainResult) (sel note : String) :
    (ensureNonEmptyExplanation r sel note).a2_plus_words = r.a2_plus_words := by
  unfold ensureNonEmptyExplanation
  split <;> rfl

/-- C4 — Every vocabulary entry of the result the deferred words pass pushes
to the UI and writes to the cache (`keepB2PlusWords` then
`enforceEasyLanguage` then `ensureNonEmptyExplanation`) satisfies
`isB2PlusWordEntry`: a CEFR level whose uppercase form is in
`{B2, C1, C2}` and non-empty `definition_simple` and `example_simple`;
`keepB2PlusWords` keeps exactly the entries satisfying these conditions
(failing entries are absent, never present with empty fields); and the
orchestrator's other result constructions carry an empty vocabulary list
(the local fallback result, and the immediate long-path result built with
`a2_plus_words := []`), which satisfies the invariant vacuously. -/
theorem vocab_b2plus_invariant :
    (∀ (baseResult : ExplainResult) (words : List WordEntry) (finalNotes selectedText : String),
      ((deferredWordsFinalResult baseResult words finalNotes selectedText).a2_plus_words.all
        isB2PlusWordEntry) = true) ∧
    (∀ (entries : List WordEntry) (e : WordEntry),
      e ∈ keepB2PlusWords entries ↔ e ∈ entries ∧ isB2PlusWordEntry e = true) ∧
    (∀ e : WordEntry,
      isB2PlusWordEntry e = true ↔
        (B2_PLUS_LEVELS.contains (jsToUpper e.cefr) = true ∧
          hasText e.definition_simple = true ∧ hasText e.example_simple = true)) ∧
    (∀ (sel note : String), (buildLocalFallbackResult sel note).a2_plus_words = []) ∧
    (∀ (r : ExplainResult) (sel : String),
      (enforceEasyLanguage { r with a2_plus_words := [] } sel).a2_plus_words = []) := by
  have hchar : ∀ e : WordEntry,
      isB2PlusWordEntry e = true ↔
        (B2_PLUS_LEVELS.contains (jsToUpper e.cefr) = true ∧
          hasText e.definition_simple = true ∧ hasText e.example_simple = true) := by
    intro e
    unfold isB2PlusWordEntry
    simp
  refine ⟨?_, ?_, hchar, ?_, ?_⟩
  · intro b w n s
    unfold deferredWordsFinalResult
    rw [ensureNonEmptyExplanation_words]
    show (((keepB2PlusWords w).map _).all isB2PlusWordEntry) = true
    rw [List.all_eq_true]
    intro e he
    rw [List.mem_map] at he
    obtain ⟨e0, he0, rfl⟩ := he
    rw [keepB2PlusWords, List.mem_filter] at he0
    obtain ⟨-, hb2⟩ := he0
    rw [hchar] at hb2
    rw [hchar]
    refine ⟨hb2.1, ?_, ?_⟩
    · show hasText ((fun s => if s = "" then "This word is not easy." else s)
        (simplifyToEasyText e0.definition_simple "")) = true
      simp only
      split
      · decide
      · rcases simplifyToEasyText_empty_or_hasText e0.definition_simple "" with h | h
        · exact absurd h (by assumption)
        · exact h
    · show hasText ((fun s => if s = "" then "I see this word here." else s)
        (simplifyToEasyText e0.example_simple "")) = true
      simp only
      split
      · decide
      · rcases simplifyToEasyText_empty_or_hasText e0.example_simple "" with h | h
        · exact absurd h (by assumption)
        · exact h
  · intro entries e
    rw [keepB2PlusWords, List.mem_filter]
  · intro sel note
    rfl
  · intro r sel
    rfl

/-! Claim C8: the difficulty test. -/

theorem jsSetAdd_mem {α : Type} [DecidableEq α] (l : List α) (x y : α) :
    y ∈ jsSetAdd l x ↔ y ∈ l ∨ y = x := by
  unfold jsSetAdd
  split
  · rename_i hx
    constructor
    · exact fun h => Or.inl h
    · rintro (h | rfl)
      · exact h
      · exact hx
  · simp

theorem suffixLoop_eq_any (L : List Char) (easyWordSet : List String) :
    ∀ rules : List (List Char × Nat),
      suffixLoop L easyWordSet rules =
        rules.any (fun rule =>
          rule.1.isSuffixOf L &&
            decide (rule.1.length + rule.2 < L.length) &&
            (easyWordSet.contains ⟨L.take (L.length - rule.1.length)⟩ ||
              ((rule.1 = "ing".data || rule.1 = "ed".data || rule.1 = "es".data) &&
                easyWordSet.contains ⟨L.take (L.length - rule.1.length) ++ ['e']⟩))) := by
  intro rules
  induction rules with
  | nil => rfl
  | cons rule rest ih =>
    obtain ⟨suffix, mn⟩ := rule
    conv_lhs => unfold suffixLoop
    rw [ih, List.any_cons]
    rw [Bool.eq_iff_iff]
    simp only [Bool.or_eq_true, Bool.and_eq_true, decide_eq_true_eq]
    split_ifs <;> tauto

/-- The code's allowed-variation test coincides with the amended spec-side
formulation (the claim's three clauses plus the per-suffix minimum stem
lengths and the empty-token case). -/
theorem ifchain_eq_orchain (a b x : Bool) (P : Prop) [Decidable P] :
    (if a = true then true else if b = true then true else if P then true else x) =
    (a || b || (decide P) || x) := by
  cases a <;> cases b <;> by_cases hP : P <;> simp [hP]

theorem isAllowedVariation_eq_claim (token : String) (easyWordSet : List String) :
    isAllowedVariation token easyWordSet =
      claimAllowedWithMinimum (normalizeToken token) easyWordSet := by
  unfold isAllowedVariation claimAllowedWithMinimum
  dsimp only
  rw [suffixLoop_eq_any, ifchain_eq_orchain]

theorem foldl_hardWords_mem (easyWordSet : List String) :
    ∀ (tokens : List String) (acc : List String) (t : String),
      (t ∈ tokens.foldl
        (fun acc token =>
          if token.length ≤ 2 ∨ isNumberLike token ∨ looksLikeProperNoun token then acc
          else if isAllowedVariation token easyWordSet then acc
          else jsSetAdd acc (normalizeToken token))
        acc) ↔
      (t ∈ acc ∨ ∃ tok, tok ∈ tokens ∧
        ¬(tok.length ≤ 2 ∨ isNumberLike tok = true ∨ looksLikeProperNoun tok = true) ∧
        isAllowedVariation tok easyWordSet = false ∧ normalizeToken tok = t) := by
  intro tokens
  induction tokens with
  | nil =>
    intro acc t
    simp
  | cons tok rest ih =>
    intro acc t
    rw [List.foldl_cons, ih]
    by_cases h1 : tok.length ≤ 2 ∨ isNumberLike tok = true ∨ looksLikeProperNoun tok = true
    · rw [if_pos (by tauto)]
      constructor
      · rintro (h | ⟨tk, htk, hc⟩)
        · exact Or.inl h
        · exact Or.inr ⟨tk, List.mem_cons_of_mem _ htk, hc⟩
      · rintro (h | ⟨tk, htk, hc⟩)
        · exact Or.inl h
        · rcases List.mem_cons.mp htk with rfl | htk'
          · exact absurd h1 hc.1
          · exact Or.inr ⟨tk, htk', hc⟩
    · rw [if_neg (by tauto)]
      by_cases h2 : isAllowedVariation tok easyWordSet = true
      · rw [if_pos h2]
        constructor
        · rintro (h | ⟨tk, htk, hc⟩)
          · exact Or.inl h
          · exact Or.inr ⟨tk, List.mem_cons_of_mem _ htk, hc⟩
        · rintro (h | ⟨tk, htk, hc⟩)
          · exact Or.inl h
          · rcases List.mem_cons.mp htk with rfl | htk'
            · rw [h2] at hc
              exact absurd hc.2.1 (by simp)
            · exact Or.inr ⟨tk, htk', hc⟩
      · rw [if_neg h2]
        have h2' : isAllowedVariation tok easyWordSet = false := by
          simpa using h2
        constructor
        · rintro (h | ⟨tk, htk, hc⟩)
          · rcases (jsSetAdd_mem acc (normalizeToken tok) t).mp h with h' | rfl
            · exact Or.inl h'
            · exact Or.inr ⟨tok, List.mem_cons_self _ _, h1, h2', rfl⟩
          · exact Or.inr ⟨tk, List.mem_cons_of_mem _ htk, hc⟩
        · rintro (h | ⟨tk, htk, hc⟩)
          · exact Or.inl ((jsSetAdd_mem acc (normalizeToken tok) t).mpr (Or.inl h))
          · rcases List.mem_cons.mp htk with rfl | htk'
            · exact Or.inl ((jsSetAdd_mem acc (normalizeToken tk) t).mpr (Or.inr hc.2.2.symm))
            · exact Or.inr ⟨tk, htk', hc⟩

/-- C8 as amended — a normalized token is reported by `findHardWords` exactly
when some raw token of the letter-run tokenizer normalizes to it, is longer
than 2 characters, is not number-like, is not proper-noun-shaped, and is not
an allowed variation in the amended sense: in the lexicon, a possessive of a
lexicon word, or stripping one of `ing, ed, es, s, er, est, ly` down to a
lexicon stem (with the `e`-insertion variant for `ing`/`ed`/`es`), **where
the remaining stem must be longer than a per-suffix minimum** (3 for
`ing`/`est`, 2 for `ed`/`es`/`er`/`ly`, 1 for `s`). -/
theorem findHardWords_characterization (text : String) (easyWordSet : List String)
    (t : String) :
    t ∈ findHardWords text easyWordSet ↔
      ∃ tok, tok ∈ matchLetterApostropheTokens text ∧ 2 < tok.length ∧
        isNumberLike tok = false ∧ looksLikeProperNoun tok = false ∧
        claimAllowedWithMinimum (normalizeToken tok) easyWordSet = false ∧
        normalizeToken tok = t := by
  unfold findHardWords
  by_cases hempty : text.data.isEmpty = true
  · rw [if_pos hempty]
    have hdata : text.data = [] := by simpa using hempty
    have htok : matchLetterApostropheTokens text = [] := by
      unfold matchLetterApostropheTokens
      rw [hdata]
      rfl
    rw [htok]
    simp
  · rw [if_neg hempty, foldl_hardWords_mem]
    simp only [List.not_mem_nil, false_or]
    constructor
    · rintro ⟨tok, htok, hfilt, hallow, hnorm⟩
      refine ⟨tok, htok, ?_, ?_, ?_, ?_, hnorm⟩
      · by_contra h
        exact hfilt (Or.inl (by omega))
      · by_contra h
        exact hfilt (Or.inr (Or.inl (by simpa using h)))
      · by_contra h
        exact hfilt (Or.inr (Or.inr (by simpa using h)))
      · rw [← isAllowedVariation_eq_claim]
        exact hallow
    · rintro ⟨tok, htok, hlen, hnum, hpn, hallow, hnorm⟩
      refine ⟨tok, htok, ?_, ?_, hnorm⟩
      · rintro (h | h | h)
        · omega
        · rw [hnum] at h
          cases h
        · rw [hpn] at h
          cases h
      · rw [isAllowedVariation_eq_claim]
        exact hallow

/-- C8 counterexample — `findHardWords "being" {"be"}` classifies `being` as
difficult, but by the claim's reading (suffix stripping without a minimum
stem length) `being` strips `ing` to the lexicon stem `be` and should be
allowed: the claim as stated is false on the code, which additionally
requires the stem to be longer than 3 characters for `ing`. -/
theorem findHardWords_counterexample :
    findHardWords "being" ["be"] = ["being"] ∧
    claimAllowedNoMinimum (normalizeToken "being") ["be"] = true := by
  constructor
  · decide
  · decide

/-! Claim C2: the copy-detection guard. -/

theorem foldl_jsSetAdd_append {α : Type} [DecidableEq α] :
    ∀ (l acc : List α), ∃ t, l.foldl jsSetAdd acc = acc ++ t := by
  intro l
  induction l with
  | nil => intro acc; exact ⟨[], by simp⟩
  | cons x xs ih =>
    intro acc
    rw [List.foldl_cons]
    obtain ⟨t, ht⟩ := ih (jsSetAdd acc x)
    by_cases hx : x ∈ acc
    · have hadd : jsSetAdd acc x = acc := by
        unfold jsSetAdd
        rw [if_pos hx]
      rw [hadd] at ht
      refine ⟨t, ?_⟩
      rw [hadd]
      exact ht
    · have hadd : jsSetAdd acc x = acc ++ [x] := by
        unfold jsSetAdd
        rw [if_neg hx]
      rw [hadd] at ht
      refine ⟨[x] ++ t, ?_⟩
      rw [hadd, ht, List.append_assoc]

theorem buildNgramSet_ne_nil (tokens : List (List Char)) (n : Nat) (hn : 0 < n)
    (hlen : n ≤ tokens.length) : buildNgramSet tokens n ≠ [] := by
  unfold buildNgramSet
  rw [if_neg (by omega)]
  cases tokens with
  | nil => simp at hlen; omega
  | cons t rest =>
    unfold ngramWindows
    rw [if_pos hlen]
    rw [List.singleton_append, List.foldl_cons]
    obtain ⟨tl, htl⟩ := foldl_jsSetAdd_append (ngramWindows n rest) (jsSetAdd [] (joinSpace ((t :: rest).take n)))
    rw [htl]
    have : jsSetAdd ([] : List (List Char)) (joinSpace ((t :: rest).take n)) =
        [joinSpace ((t :: rest).take n)] := by
      unfold jsSetAdd
      rw [if_neg (by simp)]
      simp
    rw [this]
    simp

theorem countOverlap_eq_filter_length :
    ∀ (eg sg : List (List Char)),
      countOverlap eg sg = (eg.filter (fun g => decide (g ∈ sg))).length := by
  have hgen : ∀ (eg sg : List (List Char)) (acc : Nat),
      eg.foldl (fun acc g => if g ∈ sg then acc + 1 else acc) acc =
        acc + (eg.filter (fun g => decide (g ∈ sg))).length := by
    intro eg
    induction eg with
    | nil => intro sg acc; simp
    | cons g rest ih =>
      intro sg acc
      rw [List.foldl_cons]
      by_cases hg : g ∈ sg
      · rw [if_pos hg, ih]
        rw [List.filter_cons_of_pos (by simpa using hg)]
        simp
        omega
      · rw [if_neg hg, ih]
        rw [List.filter_cons_of_neg (by simpa using hg)]
  intro eg sg
  unfold countOverlap
  rw [hgen]
  simp

/-- C2 as amended — `isExplanationTooCloseToSource` classifies an explanation
as a copy of the source exactly when, after case/punctuation normalization
and whitespace collapsing, both normalized strings are non-empty and either
(i) they are equal, or (ii) the explanation is at least 70 characters and a
substring of the source, or (iii) the **explanation** has at least 20
tokens, the **source** has at least 8 tokens (not 20, as claimed), and the
4-gram overlap ratio is at least 0.55 (`11·|explGrams| ≤ 20·overlap`); the
overlap count is the number of explanation 4-grams that are also source
4-grams; and an explanation identical to the source is rejected whenever its
normalization is non-empty. -/
theorem isExplanationTooCloseToSource_characterization :
    (∀ explanation selectedText : String,
      isExplanationTooCloseToSource explanation selectedText = true ↔
        (normalizeSimilarityText explanation).data ≠ [] ∧
        (normalizeSimilarityText selectedText).data ≠ [] ∧
        (normalizeSimilarityText explanation = normalizeSimilarityText selectedText ∨
         (70 ≤ (normalizeSimilarityText explanation).length ∧
           jsIncludes (normalizeSimilarityText selectedText).data
             (normalizeSimilarityText explanation).data = true) ∨
         (20 ≤ (similarityTokens (normalizeSimilarityText explanation)).length ∧
          8 ≤ (similarityTokens (normalizeSimilarityText selectedText)).length ∧
          11 * (buildNgramSet (similarityTokens (normalizeSimilarityText explanation)) 4).length ≤
            20 * countOverlap
              (buildNgramSet (similarityTokens (normalizeSimilarityText explanation)) 4)
              (buildNgramSet (similarityTokens (normalizeSimilarityText selectedText)) 4)))) ∧
    (∀ eg sg : List (List Char),
      countOverlap eg sg = (eg.filter (fun g => decide (g ∈ sg))).length) ∧
    (∀ x : String, normalizeSimilarityText x ≠ "" →
      isExplanationTooCloseToSource x x = true) := by
  refine ⟨?_, countOverlap_eq_filter_length, ?_⟩
  · intro explanation selectedText
    unfold isExplanationTooCloseToSource
    dsimp only
    cases hee : (normalizeSimilarityText explanation).data.isEmpty with
    | true =>
      rw [if_pos (by simp [hee])]
      simp only [Bool.false_eq_true, false_iff]
      rintro ⟨hne, -⟩
      exact hne (by simpa using hee)
    | false =>
      cases hse : (normalizeSimilarityText selectedText).data.isEmpty with
      | true =>
        rw [if_pos (by simp [hse])]
        simp only [Bool.false_eq_true, false_iff]
        rintro ⟨-, hne, -⟩
        exact hne (by simpa using hse)
      | false =>
        rw [if_neg (by simp [hee, hse])]
        have hne1 : (normalizeSimilarityText explanation).data ≠ [] := by simpa using hee
        have hne2 : (normalizeSimilarityText selectedText).data ≠ [] := by simpa using hse
        by_cases heq : normalizeSimilarityText explanation = normalizeSimilarityText selectedText
        · rw [if_pos heq]
          simp [heq, hne1, hne2]
        · rw [if_neg heq]
          by_cases hsub : 70 ≤ (normalizeSimilarityText explanation).length ∧
              jsIncludes (normalizeSimilarityText selectedText).data
                (normalizeSimilarityText explanation).data = true
          · rw [if_pos (by simp [hsub.1, hsub.2])]
            simp [heq, hsub.1, hsub.2, hne1, hne2]
          · rw [if_neg (by
              intro h
              rcases Bool.and_eq_true _ _ |>.mp h with ⟨h1, h2⟩
              exact hsub ⟨by simpa using h1, h2⟩)]
            by_cases hfew : (similarityTokens (normalizeSimilarityText explanation)).length < 8 ∨
                (similarityTokens (normalizeSimilarityText selectedText)).length < 8
            · rw [if_pos (by
                rcases hfew with h | h
                · simp [h]
                · simp [h])]
              simp only [Bool.false_eq_true, false_iff]
              rintro ⟨-, -, (h | h | h)⟩
              · exact heq h
              · exact hsub h
              · rcases hfew with hf | hf
                · omega
                · omega
            · rw [if_neg (by
                intro h
                rcases Bool.or_eq_true _ _ |>.mp h with h1 | h1
                · exact hfew (Or.inl (by simpa using h1))
                · exact hfew (Or.inr (by simpa using h1)))]
              have hsT : 8 ≤ (similarityTokens (normalizeSimilarityText selectedText)).length := by
                omega
              have hs4 : buildNgramSet (similarityTokens (normalizeSimilarityText selectedText)) 4 ≠ [] :=
                buildNgramSet_ne_nil _ 4 (by omega) (by omega)
              rw [if_neg (by simpa using hs4)]
              by_cases he4 : (buildNgramSet (similarityTokens (normalizeSimilarityText explanation)) 4).length = 0
              · have heT : ¬ 20 ≤ (similarityTokens (normalizeSimilarityText explanation)).length := by
                  intro h20
                  exact buildNgramSet_ne_nil _ 4 (by omega) (by omega)
                    (List.length_eq_zero.mp he4)
                rw [if_pos he4]
                simp only [Bool.and_false, Bool.false_eq_true, false_iff]
                rintro ⟨-, -, (h | h | h)⟩
                · exact heq h
                · exact hsub h
                · exact heT h.1
              · rw [if_neg he4]
                constructor
                · intro h
                  rcases Bool.and_eq_true _ _ |>.mp h with ⟨h1, h2⟩
                  exact ⟨hne1, hne2, Or.inr (Or.inr ⟨by simpa using h1, hsT, by simpa using h2⟩)⟩
                · rintro ⟨-, -, (h | h | h)⟩
                  · exact absurd h heq
                  · exact absurd h hsub
                  · exact Bool.and_eq_true _ _ |>.mpr ⟨by simpa using h.1, by simpa using h.2.2⟩
  · intro x hx
    unfold isExplanationTooCloseToSource
    dsimp only
    rw [if_neg (by
      simp only [Bool.or_self]
      intro h
      exact hx (string_data_inj (by simpa using h)))]
    rw [if_pos rfl]

/-- C2 counterexample — an explanation of 20 tokens built from a repeated
5-token cycle, against an 8-token source of the same cycle: the code
classifies it as a copy (overlap ratio 1 ≥ 0.55, explanation has ≥ 20
tokens, source has ≥ 8), but the claim's condition — which requires **both**
texts to have at least 20 tokens for the 4-gram branch, and matches neither
the equality nor the substring branch here — classifies it as acceptable. -/
theorem isExplanationTooCloseToSource_counterexample :
    isExplanationTooCloseToSource
        "a b c d e a b c d e a b c d e a b c d e" "a b c d e a b c" = true ∧
    claimCopyCondition
        "a b c d e a b c d e a b c d e a b c d e" "a b c d e a b c" = false ∧
    (similarityTokens (normalizeSimilarityText "a b c d e a b c")).length = 8 := by
  refine ⟨by decide, by decide, by decide⟩

/-- Witness for C2 (amended): a non-empty selection explained by itself is
always classified as a copy. -/
theorem isExplanationTooCloseToSource_witness :
    normalizeSimilarityText "The cat sat here" ≠ "" ∧
    isExplanationTooCloseToSource "The cat sat here" "The cat sat here" = true :=
  ⟨by decide,
    (isExplanationTooCloseToSource_characterization).2.2 "The cat sat here" (by decide)⟩

/-! Claim C7: response parsing and normalization. -/

theorem jsTrim_idem (s : String) : jsTrim (jsTrim s) = jsTrim s := by
  unfold jsTrim
  exact congrArg String.mk (trimChars_idem s.data)

theorem normalizeStringJs_trimmed (v : Js) :
    normalizeStringJs v = jsTrim (normalizeStringJs v) := by
  unfold normalizeStringJs
  cases v <;> simp only
  case str s => exact (jsTrim_idem s).symm
  all_goals rfl

theorem clampConfidence_bounds (v : Js) :
    0 ≤ clampConfidence v ∧ clampConfidence v ≤ 1 := by
  unfold clampConfidence
  cases v <;> simp only
  case num q =>
    exact ⟨le_max_left 0 _, max_le (by norm_num) (min_le_left _ _)⟩
  all_goals constructor <;> norm_num

/-- C7 — `parseAndNormalizeResponse` first uses the direct JSON parse; on
parse failure it retries on the inclusive first-`{`-to-last-`}` slice; when
both parses fail, or no such slice exists, or the parsed value is not an
object, it signals an error.  Successful parses are normalized: the
top-level string fields are trimmed, `confidence` is clamped into `[0, 1]`
and defaults to `0.5` for non-numbers, entries whose trimmed `word` is empty
are dropped (and only those: the surviving entries are exactly the images of
`normalizeWordItem`), an unrecognized part of speech becomes `"other"`, an
unrecognized CEFR level becomes `"unknown"`, a missing `lemma` defaults to
the lowercased `word`, and every entry string field is trimmed. -/
theorem parseAndNormalizeResponse_spec (jsonParse : String → Option Js) (rawText : String) :
    (∀ v, jsonParse rawText = some v →
      parseAndNormalizeResponse jsonParse rawText = normalizeParsedResponse v) ∧
    (∀ msg, jsonParse rawText = none → extractJsonObject rawText = .error msg →
      parseAndNormalizeResponse jsonParse rawText = .error msg) ∧
    (∀ sub v, jsonParse rawText = none → extractJsonObject rawText = .ok sub →
      jsonParse sub = some v →
      parseAndNormalizeResponse jsonParse rawText = normalizeParsedResponse v) ∧
    (∀ sub, jsonParse rawText = none → extractJsonObject rawText = .ok sub →
      jsonParse sub = none →
      parseAndNormalizeResponse jsonParse rawText = .error "JSON.parse failed.") ∧
    (∀ v, jsIsObjectLike v = false →
      normalizeParsedResponse v = .error "Parsed result is not an object.") ∧
    (∀ v r, normalizeParsedResponse v = .ok r →
      r.simple_explanation = jsTrim r.simple_explanation ∧
      r.notes = jsTrim r.notes ∧
      0 ≤ r.confidence ∧ r.confidence ≤ 1 ∧
      (jsIsNum (jsGet v "confidence") = false → r.confidence = 0.5) ∧
      r.a2_plus_words = normalizeWordEntries (jsGet v "a2_plus_words")) ∧
    (∀ item,
      (jsIsObjectLike item = true → normalizeStringJs (jsGet item "word") = "" →
        normalizeWordItem item = none) ∧
      (∀ e, normalizeWordItem item = some e →
        e.word = normalizeStringJs (jsGet item "word") ∧ e.word ≠ "" ∧
        e.word = jsTrim e.word ∧
        (POS_VALUES.contains (jsToLower (normalizeStringJs (jsGet item "pos"))) = false →
          e.pos = "other") ∧
        (CEFR_VALUES.contains (jsToUpper (normalizeStringJs (jsGet item "cefr"))) = false →
          e.cefr = "unknown") ∧
        (normalizeStringJs (jsGet item "lemma") = "" → e.«lemma» = jsToLower e.word) ∧
        e.definition_simple = jsTrim e.definition_simple ∧
        e.example_simple = jsTrim e.example_simple)) ∧
    (∀ (elems : List Js) (e : WordEntry),
      e ∈ normalizeWordEntries (.arr elems) ↔
        ∃ item ∈ elems, normalizeWordItem item = some e) := by
  refine ⟨?_, ?_, ?_, ?_, ?_, ?_, ?_, ?_⟩
  · intro v hv
    unfold parseAndNormalizeResponse
    rw [hv]
  · intro msg hnone herr
    unfold parseAndNormalizeResponse
    rw [hnone, herr]
  · intro sub v hnone hok hsub
    unfold parseAndNormalizeResponse
    rw [hnone, hok]
    show (match jsonParse sub with
      | some parsed => normalizeParsedResponse parsed
      | none => Except.error "JSON.parse failed.") = _
    rw [hsub]
  · intro sub hnone hok hsub
    unfold parseAndNormalizeResponse
    rw [hnone, hok]
    show (match jsonParse sub with
      | some parsed => normalizeParsedResponse parsed
      | none => Except.error "JSON.parse failed.") = _
    rw [hsub]
  · intro v hv
    unfold normalizeParsedResponse
    rw [if_neg (by rw [hv]; exact Bool.false_ne_true)]
  · intro v r hr
    unfold normalizeParsedResponse at hr
    by_cases hobj : jsIsObjectLike v = true
    · rw [if_pos hobj] at hr
      injection hr with hr
      subst hr
      refine ⟨normalizeStringJs_trimmed _, normalizeStringJs_trimmed _,
        (clampConfidence_bounds _).1, (clampConfidence_bounds _).2, ?_, rfl⟩
      intro hnum
      show clampConfidence (jsGet v "confidence") = 0.5
      cases hc : jsGet v "confidence" with
      | num q =>
        rw [hc] at hnum
        simp [jsIsNum] at hnum
      | jsUndefined => rfl
      | null => rfl
      | bool b => rfl
      | str s => rfl
      | arr xs => rfl
      | obj fs => rfl
    · rw [if_neg hobj] at hr
      cases hr
  · intro item
    constructor
    · intro hobj hword
      unfold normalizeWordItem
      rw [if_pos hobj, if_pos hword]
    · intro e he
      unfold normalizeWordItem at he
      by_cases hobj : jsIsObjectLike item = true
      · rw [if_pos hobj] at he
        by_cases hword : normalizeStringJs (jsGet item "word") = ""
        · rw [if_pos hword] at he
          cases he
        · rw [if_neg hword] at he
          injection he with he
          subst he
          refine ⟨rfl, hword, normalizeStringJs_trimmed _, ?_, ?_, ?_,
            normalizeStringJs_trimmed _, normalizeStringJs_trimmed _⟩
          · intro hpos
            show normalizePos (jsGet item "pos") = "other"
            unfold normalizePos
            rw [if_neg (by simp only [hpos]; exact Bool.false_ne_true)]
          · intro hcefr
            show normalizeCefr (jsGet item "cefr") = "unknown"
            unfold normalizeCefr
            rw [if_neg (by simp only [hcefr]; exact Bool.false_ne_true)]
          · intro hlem
            show (fun l => if l = "" then jsToLower (normalizeStringJs (jsGet item "word"))
              else l) (normalizeStringJs (jsGet item "lemma")) = _
            simp only [hlem, if_true]
      · rw [if_neg hobj] at he
        cases he
  · intro elems e
    show e ∈ elems.filterMap normalizeWordItem ↔ _
    rw [List.mem_filterMap]

/-- Witness for C7 at a concrete parser and raw text: the parser succeeds
directly on `"{raw}"` with an object whose `confidence` is the string
`"high"` and whose word list holds one valid entry (with untrimmed fields, a
`pos` of `"NOUN"` and no `lemma`), one non-object entry, and one entry with
a blank `word`; the theorem's conclusions are obtained at that instance. -/
theorem parseAndNormalizeResponse_spec_witness :
    (parseAndNormalizeResponse
        (fun s => if s = "{raw}" then
          some (Js.obj
            [("simple_explanation", Js.str "  An explanation.  "),
             ("a2_plus_words", Js.arr
               [Js.obj
                 [("word", Js.str " serendipity "), ("pos", Js.str "NOUN"),
                  ("cefr", Js.str "c1"), ("definition_simple", Js.str " luck "),
                  ("example_simple", Js.str "such luck")],
                Js.str "dropped",
                Js.obj [("word", Js.str "   ")]]),
             ("confidence", Js.str "high")])
          else none) "{raw}" =
      normalizeParsedResponse
        (Js.obj
          [("simple_explanation", Js.str "  An explanation.  "),
           ("a2_plus_words", Js.arr
             [Js.obj
               [("word", Js.str " serendipity "), ("pos", Js.str "NOUN"),
                ("cefr", Js.str "c1"), ("definition_simple", Js.str " luck "),
                ("example_simple", Js.str "such luck")],
              Js.str "dropped",
              Js.obj [("word", Js.str "   ")]]),
           ("confidence", Js.str "high")])) ∧
    normalizeWordItem (Js.obj [("word", Js.str "   ")]) = none ∧
    (0 ≤ clampConfidence (Js.str "high") ∧ clampConfidence (Js.str "high") ≤ 1) := by
  refine ⟨?_, ?_, clampConfidence_bounds _⟩
  · exact (parseAndNormalizeResponse_spec _ "{raw}").1 _ rfl
  · exact (parseAndNormalizeResponse_spec (fun _ => none) "x").2.2.2.2.2.2.1
      (Js.obj [("word", Js.str "   ")]) |>.1 rfl rfl

/-! Claim C1: chunking.  Supporting lemmas about `splitOnChar`, `joinSpace`
and `collapseWs`. -/

theorem splitOnChar_ne_nil (sep : Char) (l : List Char) : splitOnChar sep l ≠ [] := by
  cases l with
  | nil => simp [splitOnChar]
  | cons c rest =>
    unfold splitOnChar
    by_cases h : c = sep
    · rw [if_pos h]
      simp
    · rw [if_neg h]
      cases splitOnChar sep rest <;> simp

theorem joinSpace_cons_of_ne_nil (w : List Char) (ws : List (List Char)) (h : ws ≠ []) :
    joinSpace (w :: ws) = w ++ ' ' :: joinSpace ws := by
  cases ws with
  | nil => exact absurd rfl h
  | cons x xs => rfl

theorem joinSpace_splitOnChar_space : ∀ l : List Char, joinSpace (splitOnChar ' ' l) = l := by
  intro l
  induction l with
  | nil => rfl
  | cons c rest ih =>
    unfold splitOnChar
    by_cases hc : c = ' '
    · rw [if_pos hc]
      rw [joinSpace_cons_of_ne_nil _ _ (splitOnChar_ne_nil ' ' rest)]
      rw [ih, hc]
      rfl
    · rw [if_neg hc]
      cases hsp : splitOnChar ' ' rest with
      | nil => exact absurd hsp (splitOnChar_ne_nil ' ' rest)
      | cons w0 ws0 =>
        rw [hsp] at ih
        cases ws0 with
        | nil =>
          show c :: w0 = c :: rest
          rw [← ih]
          rfl
        | cons w1 ws1 =>
          rw [joinSpace_cons_of_ne_nil _ _ (by simp)]
          rw [joinSpace_cons_of_ne_nil _ _ (by simp)] at ih
          rw [← ih]
          simp

theorem mem_splitOnChar (sep : Char) :
    ∀ (l : List Char) (w : List Char) (c : Char),
      w ∈ splitOnChar sep l → c ∈ w → c ∈ l ∧ ¬ c = sep := by
  intro l
  induction l with
  | nil =>
    intro w c hw hc
    simp [splitOnChar] at hw
    subst hw
    simp at hc
  | cons a rest ih =>
    intro w c hw hc
    unfold splitOnChar at hw
    by_cases ha : a = sep
    · rw [if_pos ha] at hw
      rcases List.mem_cons.mp hw with rfl | hw'
      · simp at hc
      · obtain ⟨h1, h2⟩ := ih w c hw' hc
        exact ⟨List.mem_cons_of_mem _ h1, h2⟩
    · rw [if_neg ha] at hw
      cases hsp : splitOnChar sep rest with
      | nil => exact absurd hsp (splitOnChar_ne_nil sep rest)
      | cons w0 ws0 =>
        rw [hsp] at hw
        rcases List.mem_cons.mp hw with rfl | hw'
        · rcases List.mem_cons.mp hc with rfl | hc'
          · exact ⟨List.mem_cons_self _ _, ha⟩
          · obtain ⟨h1, h2⟩ := ih w0 c (by rw [hsp]; exact List.mem_cons_self _ _) hc'
            exact ⟨List.mem_cons_of_mem _ h1, h2⟩
        · obtain ⟨h1, h2⟩ := ih w c (by rw [hsp]; exact List.mem_cons_of_mem _ hw') hc
          exact ⟨List.mem_cons_of_mem _ h1, h2⟩

theorem collapseGo_ws_eq_space :
    ∀ (l : List Char) (b : Bool) (c : Char),
      c ∈ collapseGo b l → jsIsWs c = true → c = ' ' := by
  intro l
  induction l with
  | nil => intro b c hc; simp [collapseGo] at hc
  | cons a rest ih =>
    intro b c hc hws
    unfold collapseGo at hc
    by_cases ha : jsIsWs a = true
    · rw [if_pos ha] at hc
      cases b with
      | true =>
        rw [if_pos rfl] at hc
        exact ih true c hc hws
      | false =>
        rw [if_neg (by simp)] at hc
        rcases List.mem_cons.mp hc with rfl | hc'
        · rfl
        · exact ih true c hc' hws
    · rw [if_neg ha] at hc
      rcases List.mem_cons.mp hc with rfl | hc'
      · exact absurd hws ha
      · exact ih false c hc' hws

theorem collapseGo_true_head :
    ∀ (l : List Char) (c : Char),
      (collapseGo true l).head? = some c → jsIsWs c = false := by
  intro l
  induction l with
  | nil => intro c hc; simp [collapseGo] at hc
  | cons a rest ih =>
    intro c hc
    unfold collapseGo at hc
    by_cases ha : jsIsWs a = true
    · rw [if_pos ha, if_pos rfl] at hc
      exact ih c hc
    · rw [if_neg ha] at hc
      simp at hc
      rw [← hc]
      simpa using ha

theorem collapseGo_chain' :
    ∀ (l : List Char) (b : Bool),
      (collapseGo b l).Chain' (fun a c => ¬(jsIsWs a = true ∧ jsIsWs c = true)) := by
  intro l
  induction l with
  | nil => intro b; simp [collapseGo]
  | cons a rest ih =>
    intro b
    unfold collapseGo
    by_cases ha : jsIsWs a = true
    · rw [if_pos ha]
      cases b with
      | true =>
        rw [if_pos rfl]
        exact ih true
      | false =>
        rw [if_neg (by simp)]
        rw [List.chain'_cons']
        refine ⟨?_, ih true⟩
        intro y hy
        have := collapseGo_true_head rest y hy
        intro hcon
        rw [this] at hcon
        cases hcon.2
    · rw [if_neg ha]
      rw [List.chain'_cons']
      refine ⟨?_, ih false⟩
      intro y hy hcon
      exact absurd hcon.1 ha

theorem mem_of_head?_eq (l : List Char) (c : Char) (h : l.head? = some c) : c ∈ l := by
  cases l with
  | nil => simp at h
  | cons a t =>
    simp at h
    subst h
    exact List.mem_cons_self _ _

theorem mem_of_getLast?_eq :
    ∀ (l : List Char) (c : Char), l.getLast? = some c → c ∈ l := by
  intro l
  induction l with
  | nil => intro c h; simp at h
  | cons a t ih =>
    intro c h
    cases t with
    | nil =>
      simp at h
      subst h
      exact List.mem_cons_self _ _
    | cons b t' =>
      rw [List.getLast?_cons_cons] at h
      exact List.mem_cons_of_mem _ (ih c h)

/-- Segments produced by splitting a space-normalized list (no leading,
trailing, or doubled spaces) are all non-empty. -/
theorem splitOnSpace_segments_ne_nil :
    ∀ (n : Nat) (l : List Char), l.length ≤ n → l ≠ [] →
      l.head? ≠ some ' ' → l.getLast? ≠ some ' ' →
      l.Chain' (fun a b => ¬(a = ' ' ∧ b = ' ')) →
      ∀ w ∈ splitOnChar ' ' l, w ≠ [] := by
  intro n
  induction n with
  | zero =>
    intro l hl hne hhead hlast hchain w hw
    exact absurd (List.length_eq_zero.mp (Nat.le_zero.mp hl)) hne
  | succ n ih =>
    intro l hl hne hhead hlast hchain
    cases l with
    | nil => exact absurd rfl hne
    | cons c rest =>
      have hc : ¬ c = ' ' := by
        intro h
        exact hhead (by rw [h]; rfl)
      intro w hw
      unfold splitOnChar at hw
      rw [if_neg hc] at hw
      cases hsp : splitOnChar ' ' rest with
      | nil => exact absurd hsp (splitOnChar_ne_nil ' ' rest)
      | cons w0 ws0 =>
        rw [hsp] at hw
        rcases List.mem_cons.mp hw with rfl | hw'
        · simp
        · cases rest with
          | nil =>
            simp [splitOnChar] at hsp
            rw [hsp.2] at hw'
            simp at hw'
          | cons d rest' =>
            by_cases hd : d = ' '
            · subst hd
              have hsp' : splitOnChar ' ' (' ' :: rest') = [] :: splitOnChar ' ' rest' := by
                conv_lhs => unfold splitOnChar
                rw [if_pos rfl]
              rw [hsp'] at hsp
              injection hsp with h1 h2
              have hrest' : rest' ≠ [] := by
                intro h
                subst h
                exact hlast (by rfl)
              have hhead' : rest'.head? ≠ some ' ' := by
                have := (List.chain'_cons'.mp (List.chain'_cons'.mp hchain).2).1
                intro h
                cases hy : rest'.head? with
                | none => rw [hy] at h; cases h
                | some y =>
                  rw [hy] at h
                  injection h with h
                  exact this y (by rw [hy]; rfl) ⟨rfl, h⟩
              have hlast' : rest'.getLast? ≠ some ' ' := by
                intro h
                apply hlast
                cases rest' with
                | nil => exact absurd rfl hrest'
                | cons x xs =>
                  rw [List.getLast?_cons_cons, List.getLast?_cons_cons]
                  exact h
              have hchain' : rest'.Chain' (fun a b => ¬(a = ' ' ∧ b = ' ')) :=
                ((hchain.tail).tail)
              have hlen' : rest'.length ≤ n := by
                have : (c :: ' ' :: rest').length = rest'.length + 2 := by simp
                omega
              exact ih rest' hlen' hrest' hhead' hlast' hchain' w (by rw [← h2] at hw'; exact hw')
            · have hrest : (d :: rest') ≠ [] := by simp
              have hhead' : (d :: rest').head? ≠ some ' ' := by
                intro h
                simp at h
                exact hd h
              have hlast' : (d :: rest').getLast? ≠ some ' ' := by
                intro h
                apply hlast
                rw [List.getLast?_cons_cons]
                exact h
              have hchain' : (d :: rest').Chain' (fun a b => ¬(a = ' ' ∧ b = ' ')) :=
                hchain.tail
              have hlen' : (d :: rest').length ≤ n := by
                have : (c :: d :: rest').length = (d :: rest').length + 1 := by simp
                omega
              exact ih (d :: rest') hlen' hrest hhead' hlast' hchain' w
                (by rw [hsp]; exact List.mem_cons_of_mem _ hw')

theorem joinSpace_append :
    ∀ (xs ys : List (List Char)), ys ≠ [] →
      joinSpace (xs ++ ys) =
        (if xs.isEmpty then joinSpace ys else joinSpace xs ++ ' ' :: joinSpace ys) := by
  intro xs
  induction xs with
  | nil =>
    intro ys hys
    simp
  | cons x xs ih =>
    intro ys hys
    rw [List.cons_append]
    rw [joinSpace_cons_of_ne_nil _ _ (by
      intro h
      rcases List.append_eq_nil.mp h with ⟨-, h2⟩
      exact hys h2)]
    rw [ih ys hys]
    cases xs with
    | nil =>
      simp [joinSpace]
    | cons x2 xs2 =>
      rw [if_neg (by simp), if_neg (by simp)]
      rw [joinSpace_cons_of_ne_nil x (x2 :: xs2) (by simp)]
      simp [List.append_assoc]

/-- The space-joined list of non-empty whitespace-free words is non-empty
and has non-whitespace first and last characters. -/
theorem joinSpace_good :
    ∀ (words : List (List Char)),
      (∀ w ∈ words, w ≠ [] ∧ ∀ c ∈ w, jsIsWs c = false) → words ≠ [] →
      joinSpace words ≠ [] ∧
      (∀ c, (joinSpace words).head? = some c → jsIsWs c = false) ∧
      (∀ c, (joinSpace words).getLast? = some c → jsIsWs c = false) := by
  intro words
  induction words with
  | nil => intro _ h; exact absurd rfl h
  | cons w rest ih =>
    intro hgood _
    obtain ⟨hwne, hwfree⟩ := hgood w (List.mem_cons_self _ _)
    cases rest with
    | nil =>
      refine ⟨hwne, ?_, ?_⟩
      · intro c hc
        exact hwfree c (mem_of_head?_eq w c hc)
      · intro c hc
        exact hwfree c (mem_of_getLast?_eq w c hc)
    | cons r rs =>
      obtain ⟨hJne, hJhead, hJlast⟩ := ih
        (fun x hx => hgood x (List.mem_cons_of_mem _ hx)) (by simp)
      rw [joinSpace_cons_of_ne_nil _ _ (by simp)]
      refine ⟨by simp [hwne], ?_, ?_⟩
      · intro c hc
        rw [List.head?_append_of_ne_nil _ hwne] at hc
        exact hwfree c (mem_of_head?_eq w c hc)
      · intro c hc
        rw [List.getLast?_append_of_ne_nil _ (by simp)] at hc
        have : (' ' :: joinSpace (r :: rs)).getLast? = (joinSpace (r :: rs)).getLast? := by
          show ([' '] ++ joinSpace (r :: rs)).getLast? = _
          exact List.getLast?_append_of_ne_nil _ hJne
        rw [this] at hc
        exact hJlast c hc

theorem joinSpace_glue :
    ∀ (chunks : List (List Char)) (a b : List Char) (rest : List (List Char)),
      joinSpace (chunks ++ (a ++ ' ' :: b) :: rest) = joinSpace (chunks ++ a :: b :: rest) := by
  intro chunks
  induction chunks with
  | nil =>
    intro a b rest
    cases rest with
    | nil =>
      show joinSpace [a ++ ' ' :: b] = joinSpace [a, b]
      show a ++ ' ' :: b = joinSpace [a, b]
      rw [joinSpace_cons_of_ne_nil _ _ (by simp)]
      rfl
    | cons r rs =>
      rw [List.nil_append, List.nil_append]
      rw [joinSpace_cons_of_ne_nil (a ++ ' ' :: b) (r :: rs) (by simp)]
      rw [joinSpace_cons_of_ne_nil a (b :: r :: rs) (by simp)]
      rw [joinSpace_cons_of_ne_nil b (r :: rs) (by simp)]
      simp [List.append_assoc]
  | cons x xs ih =>
    intro a b rest
    rw [List.cons_append, List.cons_append]
    rw [joinSpace_cons_of_ne_nil _ _ (by simp)]
    rw [joinSpace_cons_of_ne_nil _ _ (by simp)]
    rw [ih]

theorem chunkLoop_nil (t m : Nat) (current : List Char) (chunks : List (List Char)) :
    chunkLoop t m [] current chunks =
      if current.isEmpty then chunks else chunks ++ [current] := rfl

theorem chunkLoop_cons (t m : Nat) (w current : List Char) (rest : List (List Char))
    (chunks : List (List Char)) :
    chunkLoop t m (w :: rest) current chunks =
      (if t < (if current.isEmpty then w else current ++ ' ' :: w).length ∧
          ¬ current.isEmpty = true then
        (if m ≤ (chunks ++ [current]).length + 1 then
          (if (trimChars (joinSpace (w :: rest))).isEmpty then chunks ++ [current]
           else chunks ++ [current] ++ [trimChars (joinSpace (w :: rest))])
         else chunkLoop t m rest w (chunks ++ [current]))
       else chunkLoop t m rest (if current.isEmpty then w else current ++ ' ' :: w) chunks) := by
  conv_lhs => unfold chunkLoop

/-- The accumulation loop loses no word: joining its output with single
spaces equals joining the pending chunk, the finished chunks, and the
remaining words. -/
theorem chunkLoop_join (t m : Nat) :
    ∀ (words : List (List Char)) (current : List Char) (chunks : List (List Char)),
      (∀ w ∈ words, w ≠ [] ∧ ∀ c ∈ w, jsIsWs c = false) →
      joinSpace (chunkLoop t m words current chunks) =
        joinSpace (chunks ++ (if current.isEmpty then [] else [current]) ++ words) := by
  intro words
  induction words with
  | nil =>
    intro current chunks _
    rw [chunkLoop_nil]
    by_cases hc : current.isEmpty = true
    · rw [if_pos hc, if_pos hc]
      simp
    · rw [if_neg hc, if_neg hc]
      simp
  | cons w rest ih =>
    intro current chunks hgood
    obtain ⟨hwne, hwfree⟩ := hgood w (List.mem_cons_self _ _)
    have hrest : ∀ x ∈ rest, x ≠ [] ∧ ∀ c ∈ x, jsIsWs c = false :=
      fun x hx => hgood x (List.mem_cons_of_mem _ hx)
    rw [chunkLoop_cons]
    by_cases hcond : t < (if current.isEmpty then w else current ++ ' ' :: w).length ∧
        ¬ current.isEmpty = true
    · rw [if_pos hcond]
      have hcur_if : (if current.isEmpty = true then ([] : List (List Char)) else [current]) =
          [current] := by
        rw [if_neg hcond.2]
      by_cases hcap : m ≤ (chunks ++ [current]).length + 1
      · rw [if_pos hcap]
        obtain ⟨hJne, hJhead, hJlast⟩ := joinSpace_good (w :: rest) hgood (by simp)
        have htrim : trimChars (joinSpace (w :: rest)) = joinSpace (w :: rest) :=
          trimChars_eq_self _ (fun c hc => hJhead c hc) (fun c hc => hJlast c hc)
        rw [htrim, if_neg (by simpa using hJne)]
        rw [hcur_if]
        rw [joinSpace_append (chunks ++ [current]) [joinSpace (w :: rest)] (by simp),
          joinSpace_append (chunks ++ [current]) (w :: rest) (by simp)]
        have hne : ((chunks ++ [current]).isEmpty) = false := by simp
        rw [hne]
        rfl
      · rw [if_neg hcap]
        rw [ih w (chunks ++ [current]) hrest]
        rw [if_neg (by simpa using hwne)]
        rw [hcur_if]
        congr 1
        simp
    · rw [if_neg hcond]
      by_cases hce : current.isEmpty = true
      · rw [if_pos hce, if_pos hce]
        rw [ih w chunks hrest]
        rw [if_neg (by simpa using hwne)]
        congr 1
        simp
      · rw [if_neg hce, if_neg hce]
        rw [ih (current ++ ' ' :: w) chunks hrest]
        rw [if_neg (by simp)]
        have h1 : chunks ++ [current ++ ' ' :: w] ++ rest =
            chunks ++ ((current ++ ' ' :: w) :: rest) := by simp
        have h2 : chunks ++ [current] ++ (w :: rest) = chunks ++ (current :: w :: rest) := by
          simp
        rw [h1, h2, joinSpace_glue]

/-- The accumulation loop never produces more than `maxChunks` chunks, as
long as at least two more chunks are still allowed. -/
theorem chunkLoop_length (t m : Nat) :
    ∀ (words : List (List Char)) (current : List Char) (chunks : List (List Char)),
      chunks.length + 2 ≤ m →
      (chunkLoop t m words current chunks).length ≤ m := by
  intro words
  induction words with
  | nil =>
    intro current chunks h
    rw [chunkLoop_nil]
    split
    · omega
    · rw [List.length_append]
      simp
      omega
  | cons w rest ih =>
    intro current chunks h
    rw [chunkLoop_cons]
    by_cases hcond : t < (if current.isEmpty then w else current ++ ' ' :: w).length ∧
        ¬ current.isEmpty = true
    · rw [if_pos hcond]
      by_cases hcap : m ≤ (chunks ++ [current]).length + 1
      · rw [if_pos hcap]
        split
        · rw [List.length_append]
          simp
          omega
        · rw [List.length_append, List.length_append]
          simp
          omega
      · rw [if_neg hcap]
        apply ih
        rw [List.length_append] at hcap ⊢
        simp at hcap ⊢
        omega
    · rw [if_neg hcond]
      exact ih _ chunks h

/-- C1 — For every input text, joining the chunks of
`splitTextIntoChunks(text, targetChars, maxChunks)` with single spaces
reconstructs the whitespace-normalized, trimmed text exactly (no word lost,
none duplicated, order preserved), and — whenever at least two chunks are
allowed, as in the orchestrator's configuration `maxChunks = 8` — the
number of chunks never exceeds `maxChunks`; the remainder of the text is
folded into the final chunk at the cap rather than truncated, which the
reconstruction equation witnesses. -/
theorem splitTextIntoChunks_spec (text : String) (targetChars maxChunks : Nat) :
    joinWithSingleSpace (splitTextIntoChunks text targetChars maxChunks) =
      normalizeWhitespaceJs text ∧
    (2 ≤ maxChunks →
      (splitTextIntoChunks text targetChars maxChunks).length ≤ maxChunks) := by
  unfold splitTextIntoChunks normalizeWhitespaceJs joinWithSingleSpace
  by_cases hemp : (trimChars (collapseWs text.data)).isEmpty = true
  · rw [if_pos hemp]
    constructor
    · have : trimChars (collapseWs text.data) = [] := by simpa using hemp
      rw [this]
      rfl
    · intro hm
      simp
  · rw [if_neg hemp]
    have hLne : trimChars (collapseWs text.data) ≠ [] := by simpa using hemp
    have hallspace : ∀ c ∈ trimChars (collapseWs text.data), jsIsWs c = true → c = ' ' :=
      fun c hc hw =>
        collapseGo_ws_eq_space text.data false c ((trimChars_within _).subset hc) hw
    have hchainSp : (trimChars (collapseWs text.data)).Chain'
        (fun a b => ¬(a = ' ' ∧ b = ' ')) := by
      apply (List.Chain'.imp ?_ ( List.Chain'.infix (collapseGo_chain' text.data false) (trimChars_within _)))
      intro a b hab
      rintro ⟨ha, hb⟩
      exact hab ⟨by rw [ha]; rfl, by rw [hb]; rfl⟩
    have hheadL : (trimChars (collapseWs text.data)).head? ≠ some ' ' := by
      intro h
      have := trimChars_head_not (collapseWs text.data) ' ' h
      simp [jsIsWs] at this
    have hlastL : (trimChars (collapseWs text.data)).getLast? ≠ some ' ' := by
      intro h
      have := trimChars_getLast_not (collapseWs text.data) ' ' h
      simp [jsIsWs] at this
    have hsegs := splitOnSpace_segments_ne_nil (trimChars (collapseWs text.data)).length
      (trimChars (collapseWs text.data)) (le_refl _) hLne hheadL hlastL hchainSp
    have hgood : ∀ w ∈ splitOnChar ' ' (trimChars (collapseWs text.data)),
        w ≠ [] ∧ ∀ c ∈ w, jsIsWs c = false := by
      intro w hw
      refine ⟨hsegs w hw, ?_⟩
      intro c hc
      obtain ⟨hcL, hcs⟩ := mem_splitOnChar ' ' _ w c hw hc
      by_contra hws
      exact hcs (hallspace c hcL (by simpa using hws))
    constructor
    · have hmap : List.map String.data (List.map (fun l => (⟨l⟩ : String))
          (chunkLoop targetChars maxChunks
            (splitOnChar ' ' (trimChars (collapseWs text.data))) [] [])) =
          chunkLoop targetChars maxChunks
            (splitOnChar ' ' (trimChars (collapseWs text.data))) [] [] := by
        rw [List.map_map]
        have hid : (String.data ∘ fun l => (⟨l⟩ : String)) = id := rfl
        rw [hid, List.map_id]
      rw [hmap]
      rw [chunkLoop_join targetChars maxChunks _ [] [] hgood]
      have hnilc : (([] : List (List Char)) ++
          (if ([] : List Char).isEmpty = true then ([] : List (List Char)) else [[]]) ++
          splitOnChar ' ' (trimChars (collapseWs text.data))) =
          splitOnChar ' ' (trimChars (collapseWs text.data)) := rfl
      rw [hnilc, joinSpace_splitOnChar_space]
    · intro hm
      rw [List.length_map]
      exact chunkLoop_length targetChars maxChunks _ [] [] (by simpa using hm)

/-- Witness for C1 at a concrete text and a cap of two chunks. -/
theorem splitTextIntoChunks_spec_witness :
    joinWithSingleSpace (splitTextIntoChunks "aa bb cc dd" 5 2) =
      normalizeWhitespaceJs "aa bb cc dd" ∧
    (splitTextIntoChunks "aa bb cc dd" 5 2).length ≤ 2 :=
  ⟨(splitTextIntoChunks_spec "aa bb cc dd" 5 2).1,
   (splitTextIntoChunks_spec "aa bb cc dd" 5 2).2 (by decide)⟩

/-! Supporting lemmas for the worker pool (C10). -/

theorem poolStep_none {α β : Type} (items : List α) (mapper : α → β) (st : PoolState β)
    (w : Nat) (hw : st.workers.get? w = none) :
    poolStep items mapper st w = st := by
  unfold poolStep
  rw [hw]

theorem poolStep_done {α β : Type} (items : List α) (mapper : α → β) (st : PoolState β)
    (w : Nat) (hw : st.workers.get? w = some .done) :
    poolStep items mapper st w = st := by
  unfold poolStep
  rw [hw]

theorem poolStep_idle {α β : Type} (items : List α) (mapper : α → β) (st : PoolState β)
    (w : Nat) (hw : st.workers.get? w = some .idle) :
    poolStep items mapper st w =
      if st.nextIndex < items.length then
        { st with nextIndex := st.nextIndex + 1,
                  claimLog := st.claimLog ++ [st.nextIndex],
                  workers := st.workers.set w (.running st.nextIndex) }
      else { st with workers := st.workers.set w .done } := by
  unfold poolStep
  rw [hw]

theorem poolStep_running {α β : Type} (items : List α) (mapper : α → β) (st : PoolState β)
    (w i : Nat) (hw : st.workers.get? w = some (.running i)) :
    poolStep items mapper st w =
      { st with results := st.results.set i ((items.get? i).map mapper),
                workers := st.workers.set w .idle } := by
  unfold poolStep
  rw [hw]

theorem get?_length_append {γ : Type} (pre : List γ) (a : γ) (suf : List γ) :
    (pre ++ a :: suf).get? pre.length = some a := by
  induction pre with
  | nil => rfl
  | cons x t ih => simpa using ih

theorem set_length_append {γ : Type} (pre : List γ) (a v : γ) (suf : List γ) :
    (pre ++ a :: suf).set pre.length v = pre ++ v :: suf := by
  induction pre with
  | nil => rfl
  | cons x t ih =>
    show x :: ((t ++ a :: suf).set t.length v) = x :: (t ++ v :: suf)
    rw [ih]

theorem take_fill_set {α β : Type} (g : α → β) :
    ∀ (l : List α) (i : Nat), i < l.length →
      (((l.take i).map (fun a => some (g a))) ++
          List.replicate (l.length - i) (none : Option β)).set i ((l.get? i).map g) =
        ((l.take (i+1)).map (fun a => some (g a))) ++
          List.replicate (l.length - (i+1)) (none : Option β) := by
  intro l
  induction l with
  | nil =>
    intro i h
    simp at h
  | cons a t ih =>
    intro i h
    cases i with
    | zero =>
      simp [List.replicate_succ]
    | succ i =>
      have h' : i < t.length := by simpa using h
      have hstep := ih i h'
      simp only [List.take_succ_cons, List.map_cons, List.cons_append, List.length_cons,
        Nat.succ_sub_succ, List.get?_cons_succ]
      show some (g a) ::
          (((t.take i).map (fun a => some (g a))) ++
            List.replicate (t.length - i) (none : Option β)).set i ((t.get? i).map g) = _
      rw [hstep]

theorem poolInv_init {α β : Type} (items : List α) (mapper : α → β) (k : Nat) :
    PoolInv items mapper k (poolInit β items.length k) := by
  unfold PoolInv poolInit
  refine ⟨by simp, by simp, Nat.zero_le _, rfl, ?_, ?_, ?_⟩
  · intro w i hw
    exact absurd (List.eq_of_mem_replicate (List.get?_mem hw)) (by simp)
  · intro i hi
    exact absurd hi (Nat.not_lt_zero i)
  · intro w hw
    exact absurd (List.eq_of_mem_replicate (List.get?_mem hw)) (by simp)

theorem poolInv_step {α β : Type} (items : List α) (mapper : α → β) (k : Nat)
    (st : PoolState β) (w : Nat) (h : PoolInv items mapper k st) :
    PoolInv items mapper k (poolStep items mapper st w) := by
  obtain ⟨hres, hwk, hnext, hlog, hrun, hfill, hdone⟩ := h
  cases hw : st.workers.get? w with
  | none =>
    rw [poolStep_none items mapper st w hw]
    exact ⟨hres, hwk, hnext, hlog, hrun, hfill, hdone⟩
  | some ph =>
    cases ph with
    | done =>
      rw [poolStep_done items mapper st w hw]
      exact ⟨hres, hwk, hnext, hlog, hrun, hfill, hdone⟩
    | idle =>
      obtain ⟨hwlt, -⟩ := List.get?_eq_some.mp hw
      rw [poolStep_idle items mapper st w hw]
      by_cases hc : st.nextIndex < items.length
      · rw [if_pos hc]
        unfold PoolInv
        dsimp only
        refine ⟨hres, by rw [List.length_set]; exact hwk, by omega,
          by rw [hlog, List.range_succ], ?_, ?_, ?_⟩
        · intro w' i hw'
          by_cases hww : w = w'
          · subst hww
            rw [List.get?_set_eq_of_lt _ hwlt] at hw'
            have : st.nextIndex = i := by simpa using hw'
            omega
          · rw [List.get?_set_ne _ _ hww] at hw'
            exact Nat.lt_succ_of_lt (hrun w' i hw')
        · intro i hi
          by_cases hilt : i < st.nextIndex
          · rcases hfill i hilt with hf | ⟨w', hw'⟩
            · exact Or.inl hf
            · right
              have hne : w ≠ w' := by
                intro he
                subst he
                rw [hw] at hw'
                exact absurd hw' (by simp)
              exact ⟨w', by rw [List.get?_set_ne _ _ hne]; exact hw'⟩
          · have hieq : i = st.nextIndex := by omega
            subst hieq
            right
            exact ⟨w, by rw [List.get?_set_eq_of_lt _ hwlt]⟩
        · intro w' hw'
          by_cases hww : w = w'
          · subst hww
            rw [List.get?_set_eq_of_lt _ hwlt] at hw'
            exact absurd hw' (by simp)
          · rw [List.get?_set_ne _ _ hww] at hw'
            exact Nat.le_succ_of_le (hdone w' hw')
      · rw [if_neg hc]
        unfold PoolInv
        dsimp only
        refine ⟨hres, by rw [List.length_set]; exact hwk, hnext, hlog, ?_, ?_, ?_⟩
        · intro w' i hw'
          by_cases hww : w = w'
          · subst hww
            rw [List.get?_set_eq_of_lt _ hwlt] at hw'
            exact absurd hw' (by simp)
          · rw [List.get?_set_ne _ _ hww] at hw'
            exact hrun w' i hw'
        · intro i hi
          rcases hfill i hi with hf | ⟨w', hw'⟩
          · exact Or.inl hf
          · right
            have hne : w ≠ w' := by
              intro he
              subst he
              rw [hw] at hw'
              exact absurd hw' (by simp)
            exact ⟨w', by rw [List.get?_set_ne _ _ hne]; exact hw'⟩
        · intro w' _
          omega
    | running j =>
      obtain ⟨hwlt, -⟩ := List.get?_eq_some.mp hw
      have hj : j < st.nextIndex := hrun w j hw
      rw [poolStep_running items mapper st w j hw]
      unfold PoolInv
      dsimp only
      refine ⟨by rw [List.length_set]; exact hres, by rw [List.length_set]; exact hwk,
        hnext, hlog, ?_, ?_, ?_⟩
      · intro w' i hw'
        by_cases hww : w = w'
        · subst hww
          rw [List.get?_set_eq_of_lt _ hwlt] at hw'
          exact absurd hw' (by simp)
        · rw [List.get?_set_ne _ _ hww] at hw'
          exact hrun w' i hw'
      · intro i hi
        by_cases hij : i = j
        · subst hij
          left
          exact List.get?_set_eq_of_lt _ (by rw [hres]; omega)
        · rcases hfill i hi with hf | ⟨w', hw'⟩
          · left
            rw [List.get?_set_ne _ _ (Ne.symm hij)]
            exact hf
          · right
            have hne : w ≠ w' := by
              intro he
              subst he
              rw [hw] at hw'
              have : j = i := by simpa using hw'
              exact hij this.symm
            exact ⟨w', by rw [List.get?_set_ne _ _ hne]; exact hw'⟩
      · intro w' hw'
        by_cases hww : w = w'
        · subst hww
          rw [List.get?_set_eq_of_lt _ hwlt] at hw'
          exact absurd hw' (by simp)
        · rw [List.get?_set_ne _ _ hww] at hw'
          exact hdone w' hw'

theorem poolInv_run {α β : Type} (items : List α) (mapper : α → β) (k : Nat) :
    ∀ (schedule : List Nat) (st : PoolState β), PoolInv items mapper k st →
      PoolInv items mapper k (schedule.foldl (poolStep items mapper) st) := by
  intro schedule
  induction schedule with
  | nil => intro st h; exact h
  | cons s rest ih => intro st h; exact ih _ (poolInv_step items mapper k st s h)

/-- When every worker has retired, the invariant forces the cursor to the
end, the results array to be the in-order image of the items, and the claim
log to list each index exactly once in order. -/
theorem pool_done_results {α β : Type} (items : List α) (mapper : α → β) (k : Nat)
    (st : PoolState β) (hk : 1 ≤ k) (hinv : PoolInv items mapper k st)
    (hdone : allWorkersDone st = true) :
    st.results = items.map (fun a => some (mapper a)) ∧
      st.claimLog = List.range items.length := by
  obtain ⟨hres, hwk, hnext, hlog, hrun, hfill, hdn⟩ := hinv
  have hall : ∀ w ph, st.workers.get? w = some ph → ph = .done := by
    intro w ph hw
    have hp := List.all_eq_true.mp hdone ph (List.get?_mem hw)
    cases ph with
    | done => rfl
    | idle => exact absurd hp Bool.false_ne_true
    | running i => exact absurd hp Bool.false_ne_true
  have hge : items.length ≤ st.nextIndex := by
    obtain ⟨ph, hph⟩ : ∃ ph, st.workers.get? 0 = some ph := by
      cases hg : st.workers.get? 0 with
      | some ph => exact ⟨ph, rfl⟩
      | none =>
        rw [List.get?_eq_none, hwk] at hg
        omega
    have hphd := hall 0 ph hph
    subst hphd
    exact hdn 0 hph
  have heq : st.nextIndex = items.length := Nat.le_antisymm hnext hge
  constructor
  · apply List.ext_get?_iff.mpr
    intro i
    by_cases hi : i < items.length
    · rcases hfill i (by omega) with hf | ⟨w, hw⟩
      · obtain ⟨x, hx⟩ : ∃ x, items.get? i = some x := by
          cases hg : items.get? i with
          | some x => exact ⟨x, rfl⟩
          | none =>
            rw [List.get?_eq_none] at hg
            omega
        rw [hf, List.get?_map, hx]
        rfl
      · exact absurd (hall w _ hw) (by simp)
    · have h1 : st.results.get? i = none := List.get?_eq_none.mpr (by rw [hres]; omega)
      have h2 : (items.map (fun a => some (mapper a))).get? i = none :=
        List.get?_eq_none.mpr (by rw [List.length_map]; omega)
      rw [h1, h2]
  · rw [hlog, heq]

/-- Running the sequential schedule (worker 0 alternates claim and write)
for `2*i` steps fills the first `i` slots in order. -/
theorem seq_pairs {α β : Type} (items : List α) (mapper : α → β) (k' : Nat) :
    ∀ (i : Nat), i ≤ items.length →
      (List.replicate (2 * i) 0).foldl (poolStep items mapper)
          (poolInit β items.length (k' + 1)) =
        ⟨i, ((items.take i).map (fun a => some (mapper a))) ++
              List.replicate (items.length - i) none,
          List.range i, WorkerPhase.idle :: List.replicate k' .idle⟩ := by
  intro i
  induction i with
  | zero =>
    intro _
    rfl
  | succ i ih =>
    intro h
    have hi : i ≤ items.length := Nat.le_of_succ_le h
    have hlt : i < items.length := h
    have h2 : 2 * (i + 1) = 2 * i + 1 + 1 := by ring
    rw [h2, List.replicate_succ', List.foldl_append, List.replicate_succ',
      List.foldl_append, ih hi]
    simp only [List.foldl_cons, List.foldl_nil]
    rw [poolStep_idle items mapper
      ⟨i, ((items.take i).map (fun a => some (mapper a))) ++
          List.replicate (items.length - i) none,
        List.range i, WorkerPhase.idle :: List.replicate k' .idle⟩ 0 rfl]
    dsimp only
    rw [if_pos hlt]
    simp only [List.set_cons_zero]
    rw [poolStep_running items mapper
      ⟨i + 1, ((items.take i).map (fun a => some (mapper a))) ++
          List.replicate (items.length - i) none,
        List.range i ++ [i], WorkerPhase.running i :: List.replicate k' .idle⟩ 0 i rfl]
    dsimp only
    simp only [List.set_cons_zero]
    rw [take_fill_set mapper items i hlt, ← List.range_succ]

/-- Once the cursor is exhausted, one extra step per still-idle worker
retires them all. -/
theorem poolFinish {α β : Type} (items : List α) (mapper : α → β)
    (R : List (Option β)) (L : List Nat) :
    ∀ (m : Nat) (pre : List WorkerPhase),
      (((List.range m).map (fun x => x + pre.length)).foldl (poolStep items mapper)
          ⟨items.length, R, L, pre ++ List.replicate m .idle⟩ : PoolState β) =
        ⟨items.length, R, L, pre ++ List.replicate m .done⟩ := by
  intro m
  induction m with
  | zero =>
    intro pre
    rfl
  | succ m ih =>
    intro pre
    rw [List.range_succ_eq_map, List.map_cons, List.map_map, List.foldl_cons]
    simp only [Nat.zero_add]
    rw [List.replicate_succ]
    rw [poolStep_idle items mapper
      ⟨items.length, R, L, pre ++ WorkerPhase.idle :: List.replicate m .idle⟩ pre.length
      (get?_length_append pre .idle (List.replicate m .idle))]
    dsimp only
    rw [if_neg (lt_irrefl items.length)]
    rw [set_length_append]
    have hw : pre ++ WorkerPhase.done :: List.replicate m .idle =
        (pre ++ [WorkerPhase.done]) ++ List.replicate m .idle := by
      simp
    rw [hw]
    have hsched : (List.range m).map ((fun x => x + pre.length) ∘ Nat.succ) =
        (List.range m).map (fun x => x + (pre ++ [WorkerPhase.done]).length) := by
      apply List.map_congr_left
      intro a _
      simp [Function.comp]
      omega
    rw [hsched, ih (pre ++ [WorkerPhase.done])]
    have hfin : (pre ++ [WorkerPhase.done]) ++ List.replicate m .done =
        pre ++ List.replicate (m + 1) .done := by
      simp [List.replicate_succ]
    rw [hfin]

/-- C10 — `mapWithConcurrency(items, limit, mapper)` is a sequential
in-order map under every interleaving: the effective worker count is
clamped between 1 and the item count (`max 1 (min limit n)`); every
schedule that drives all workers to completion yields exactly
`items.map mapper` slot by slot (same length, element `i` the mapper's
value on `items[i]`) with the cursor log showing each index claimed
exactly once in order; a completing schedule always exists; and an empty
item list yields an empty array under any schedule. -/
theorem mapWithConcurrency_spec {α β : Type} (items : List α) (limit : Nat)
    (mapper : α → β) :
    (1 ≤ safeLimit limit items.length ∧
      safeLimit limit items.length ≤ max items.length 1) ∧
    (∀ schedule,
        allWorkersDone (poolRun items mapper (safeLimit limit items.length) schedule) =
          true →
        mapWithConcurrency items limit mapper schedule =
          items.map (fun a => some (mapper a)) ∧
        (poolRun items mapper (safeLimit limit items.length) schedule).claimLog =
          List.range items.length) ∧
    (∃ schedule,
        allWorkersDone (poolRun items mapper (safeLimit limit items.length) schedule) =
          true) ∧
    (∀ schedule, mapWithConcurrency ([] : List α) limit mapper schedule = []) := by
  refine ⟨⟨?_, ?_⟩, ?_, ?_, ?_⟩
  · unfold safeLimit
    omega
  · unfold safeLimit
    omega
  · intro schedule hdone
    have hinv : PoolInv items mapper (safeLimit limit items.length)
        (poolRun items mapper (safeLimit limit items.length) schedule) :=
      poolInv_run items mapper _ schedule _ (poolInv_init items mapper _)
    have hmain := pool_done_results items mapper _ _ (by unfold safeLimit; omega) hinv hdone
    refine ⟨?_, hmain.2⟩
    unfold mapWithConcurrency
    by_cases he : items.isEmpty = true
    · rw [if_pos he]
      have hnil : items = [] := by
        cases items with
        | nil => rfl
        | cons a t => exact absurd he (by simp)
      rw [hnil]
      rfl
    · rw [if_neg he]
      exact hmain.1
  · obtain ⟨k', hk⟩ : ∃ k', safeLimit limit items.length = k' + 1 := by
      unfold safeLimit
      exact ⟨max 1 (min limit items.length) - 1, by omega⟩
    refine ⟨List.replicate (2 * items.length) 0 ++
      (List.range (k' + 1)).map (fun x => x + ([] : List WorkerPhase).length), ?_⟩
    unfold poolRun
    rw [hk, List.foldl_append, seq_pairs items mapper k' items.length (le_refl _)]
    have hstate : (⟨items.length,
        ((items.take items.length).map (fun a => some (mapper a))) ++
          List.replicate (items.length - items.length) none,
        List.range items.length,
        WorkerPhase.idle :: List.replicate k' .idle⟩ : PoolState β) =
      ⟨items.length, items.map (fun a => some (mapper a)), List.range items.length,
        ([] : List WorkerPhase) ++ List.replicate (k' + 1) .idle⟩ := by
      simp [List.replicate_succ]
    rw [hstate, poolFinish items mapper _ _ (k' + 1) []]
    unfold allWorkersDone
    rw [List.all_eq_true]
    intro x hx
    have hmem : x ∈ List.replicate (k' + 1) WorkerPhase.done := by simpa using hx
    have hx' : x = WorkerPhase.done := List.eq_of_mem_replicate hmem
    subst hx'
    rfl
  · intro schedule
    rfl

/-- Witness for C10: three items under limit 2 and a completing round-robin
schedule produce the in-order mapped array with each index claimed once. -/
theorem mapWithConcurrency_spec_witness :
    allWorkersDone (poolRun [10, 20, 30] (fun n => n + 1) (safeLimit 2 3)
      [0, 1, 0, 1, 0, 1, 0, 1, 0]) = true ∧
    mapWithConcurrency [10, 20, 30] 2 (fun n => n + 1) [0, 1, 0, 1, 0, 1, 0, 1, 0] =
      [some 11, some 21, some 31] := by
  have h := (mapWithConcurrency_spec [10, 20, 30] 2 (fun n => n + 1)).2.1
    [0, 1, 0, 1, 0, 1, 0, 1, 0] (by rfl)
  exact ⟨by rfl, by rw [h.1]; rfl⟩

end EasyRead
